import Mathlib

/-!
Verification of the auth/session core of the keycloak-react component library.

The development shallowly embeds, in Lean, the library's:

* token claims extraction (`decodeToken` in `src/UserAvatar` / account module):
  dot-splitting, base64url mapping, `atob` (forgiving base64), the
  percent-escape + `decodeURIComponent` UTF-8 step, and JSON parsing;
* the `KeycloakAuthProvider` initialization effect and external-client
  callback handlers, as a step function over an explicit provider state with
  an emitted-effect trace;
* the `extractUser` projection from parsed token claims to the `User` record;
* the `Protect` role guard and the `UserButton`/`UserAvatar` field
  resolution chains;
* the `getToken`/`signIn`/`signOut`/`signUp` context operations.

Modelling conventions: JavaScript `undefined`/`null` absence is `Option`;
machine numbers are `Nat`/`Int`; a thrown-and-caught exception is `none`;
JSON numbers are restricted to integers (the library never interprets
numeric claims, and float semantics are out of scope); JSON strings are
Unicode scalar sequences (`List Char`), so lone UTF-16 surrogates are
modelled as parse failures.
-/

/-! ## JSON data model

`JSON.parse` / `JSON.stringify` operate on arbitrary JSON values.  The value
type is a mutual inductive so that structural recursion and induction over
arrays and objects stay elementary. Object members keep their order and may
repeat, which subsumes the JavaScript object behaviour for values produced
by `JSON.stringify`. -/

mutual

inductive Json where
  | null : Json
  | bool (b : Bool) : Json
  | num (n : Int) : Json
  | str (s : List Char) : Json
  | arr (elems : JsonList) : Json
  | obj (mems : JsonMems) : Json

inductive JsonList where
  | nil : JsonList
  | cons (hd : Json) (tl : JsonList) : JsonList

inductive JsonMems where
  | nil : JsonMems
  | cons (key : List Char) (value : Json) (tl : JsonMems) : JsonMems

end

/-! ## Decimal and hexadecimal digits -/

/-- The decimal digit character for `d < 10`. -/
def digitOf (d : Nat) : Char := Char.ofNat (48 + d)

/-- Decimal digit test, arithmetically (`'0'` is code point 48). -/
def isDigitC (c : Char) : Bool := decide (48 ≤ c.toNat ∧ c.toNat ≤ 57)

/-- Canonical decimal digits of a natural number, most significant first. -/
def natChars (n : Nat) : List Char :=
  if _h : n < 10 then [digitOf n]
  else natChars (n / 10) ++ [digitOf (n % 10)]
decreasing_by exact Nat.div_lt_self (by omega) (by omega)

/-- Canonical decimal rendering of an integer (`JSON.stringify` on an
integral number). -/
def intChars (n : Int) : List Char :=
  if n < 0 then '-' :: natChars n.natAbs else natChars n.natAbs

/-- Lowercase hexadecimal digit characters. -/
def hexCharsList : List Char :=
  '0' :: '1' :: '2' :: '3' :: '4' :: '5' :: '6' :: '7' :: '8' :: '9' ::
    'a' :: 'b' :: 'c' :: 'd' :: 'e' :: ['f']

/-- The lowercase hex digit for `d < 16`. -/
def hexDigitOf (d : Nat) : Char := hexCharsList.getD d '0'

/-- Value of a hexadecimal digit character (either case), `none` otherwise. -/
def hexVal (c : Char) : Option Nat :=
  if 48 ≤ c.toNat ∧ c.toNat ≤ 57 then some (c.toNat - 48)
  else if 97 ≤ c.toNat ∧ c.toNat ≤ 102 then some (c.toNat - 87)
  else if 65 ≤ c.toNat ∧ c.toNat ≤ 70 then some (c.toNat - 55)
  else none

/-! ## JSON serialization (`JSON.stringify`)

Matches the compact output of `JSON.stringify`: no whitespace, `"`, `\` and
control characters escaped (`\b \t \n \f \r`, otherwise `\u00xx`). -/

/-- Escape of one character inside a JSON string literal. -/
def escChar (c : Char) : List Char :=
  if c = '"' then ['\\', '"']
  else if c = '\\' then ['\\', '\\']
  else if c.toNat < 32 then
    if c.toNat = 8 then ['\\', 'b']
    else if c.toNat = 9 then ['\\', 't']
    else if c.toNat = 10 then ['\\', 'n']
    else if c.toNat = 12 then ['\\', 'f']
    else if c.toNat = 13 then ['\\', 'r']
    else ['\\', 'u', '0', '0', hexDigitOf (c.toNat / 16), hexDigitOf (c.toNat % 16)]
  else [c]

/-- Body of a JSON string literal: each character escaped. -/
def strBodyChars (s : List Char) : List Char := s.flatMap escChar

/-- A quoted JSON string literal. -/
def quoteChars (s : List Char) : List Char := '"' :: (strBodyChars s ++ ['"'])

mutual

/-- `JSON.stringify` of a value, as a character list. -/
def jsonChars : Json → List Char
  | .null => 'n' :: 'u' :: ['l', 'l']
  | .bool true => 't' :: 'r' :: ['u', 'e']
  | .bool false => 'f' :: 'a' :: ['l', 's', 'e']
  | .num n => intChars n
  | .str s => quoteChars s
  | .arr es => '[' :: (jsonCharsList es ++ [']'])
  | .obj ms => '\x7b' :: (jsonCharsMems ms ++ ['\x7d'])

/-- Comma-separated rendering of array elements. -/
def jsonCharsList : JsonList → List Char
  | .nil => []
  | .cons h .nil => jsonChars h
  | .cons h (.cons h2 t) => jsonChars h ++ ',' :: jsonCharsList (.cons h2 t)

/-- Comma-separated rendering of object members. -/
def jsonCharsMems : JsonMems → List Char
  | .nil => []
  | .cons k v .nil => quoteChars k ++ ':' :: jsonChars v
  | .cons k v (.cons k2 v2 t) =>
      quoteChars k ++ ':' :: jsonChars v ++ ',' :: jsonCharsMems (.cons k2 v2 t)

end

mutual

/-- Fuel measure for the JSON parser: enough fuel to re-parse the
serialized value. -/
def jsize : Json → Nat
  | .null => 1
  | .bool _ => 1
  | .num _ => 1
  | .str s => 1 + s.length
  | .arr es => 1 + jsizeList es
  | .obj ms => 1 + jsizeMems ms

/-- Fuel measure for array elements. -/
def jsizeList : JsonList → Nat
  | .nil => 0
  | .cons h t => 1 + jsize h + jsizeList t

/-- Fuel measure for object members. -/
def jsizeMems : JsonMems → Nat
  | .nil => 0
  | .cons k v t => 1 + k.length + jsize v + jsizeMems t

end

/-! ## JSON parsing (`JSON.parse`) -/

/-- JSON insignificant whitespace: space, tab, line feed, carriage return. -/
def isJsonWs (c : Char) : Bool :=
  c.toNat = 32 || c.toNat = 9 || c.toNat = 10 || c.toNat = 13

/-- Skip insignificant whitespace. -/
def skipWs (cs : List Char) : List Char := cs.dropWhile isJsonWs

/-- Match an exact literal tail (the rest of `null` / `true` / `false`). -/
def expectL : List Char → List Char → Option (List Char)
  | [], r => some r
  | _ :: _, [] => none
  | e :: t, c :: r => if c = e then expectL t r else none

/-- Consume a maximal run of decimal digits, accumulating their value. -/
def parseDigitsAcc (acc : Nat) : List Char → Nat × List Char
  | [] => (acc, [])
  | c :: r => if isDigitC c then parseDigitsAcc (acc * 10 + (c.toNat - 48)) r else (acc, c :: r)

/-- Parse a JSON number (restricted to optionally-signed decimal integers). -/
def parseNumber : List Char → Option (Json × List Char)
  | [] => none
  | c :: r =>
    if c = '-' then
      match r with
      | [] => none
      | d :: _ =>
        if isDigitC d then
          let p := parseDigitsAcc 0 r
          some (.num (-(Int.ofNat p.1)), p.2)
        else none
    else if isDigitC c then
      let p := parseDigitsAcc 0 (c :: r)
      some (.num (Int.ofNat p.1), p.2)
    else none

/-- Value of four hex digits. -/
def hex4 (h1 h2 h3 h4 : Char) : Option Nat :=
  (hexVal h1).bind fun a =>
  (hexVal h2).bind fun b =>
  (hexVal h3).bind fun c =>
  (hexVal h4).bind fun d =>
  some (((a * 16 + b) * 16 + c) * 16 + d)

/-- Single-character JSON escapes. -/
def escUnmap (e : Char) : Option Char :=
  if e = '"' then some '"'
  else if e = '\\' then some '\\'
  else if e = '/' then some '/'
  else if e = 'b' then some (Char.ofNat 8)
  else if e = 't' then some (Char.ofNat 9)
  else if e = 'n' then some (Char.ofNat 10)
  else if e = 'f' then some (Char.ofNat 12)
  else if e = 'r' then some (Char.ofNat 13)
  else none

/-- Parse the body of a JSON string literal up to the closing quote.
`\uXXXX` surrogate pairs are combined; a lone surrogate is a failure
(JavaScript would produce a lone-surrogate string, which a scalar-value
string cannot represent). Fuel bounds the number of produced characters. -/
def parseStrBody (fuel : Nat) : List Char → Option (List Char × List Char)
  | [] => none
  | c :: r =>
    if c = '"' then some ([], r)
    else
      match fuel with
      | 0 => none
      | f + 1 =>
        if c = '\\' then
          match r with
          | [] => none
          | e :: r2 =>
            if e = 'u' then
              match r2 with
              | h1 :: h2 :: h3 :: h4 :: r3 =>
                (hex4 h1 h2 h3 h4).bind fun n =>
                if 0xd800 ≤ n ∧ n ≤ 0xdbff then
                  match r3 with
                  | '\\' :: 'u' :: g1 :: g2 :: g3 :: g4 :: r4 =>
                    (hex4 g1 g2 g3 g4).bind fun m =>
                    if 0xdc00 ≤ m ∧ m ≤ 0xdfff then
                      (parseStrBody f r4).map fun p =>
                        (Char.ofNat (0x10000 + (n - 0xd800) * 0x400 + (m - 0xdc00)) :: p.1, p.2)
                    else none
                  | _ => none
                else if 0xdc00 ≤ n ∧ n ≤ 0xdfff then none
                else (parseStrBody f r3).map fun p => (Char.ofNat n :: p.1, p.2)
              | _ => none
            else
              (escUnmap e).bind fun ec =>
              (parseStrBody f r2).map fun p => (ec :: p.1, p.2)
        else if c.toNat < 32 then none
        else (parseStrBody f r).map fun p => (c :: p.1, p.2)

mutual

/-- Parse one JSON value (after skipping leading whitespace). -/
def parseVal : Nat → List Char → Option (Json × List Char)
  | 0, _ => none
  | fuel + 1, input =>
    match skipWs input with
    | [] => none
    | c :: r =>
      if c = 'n' then (expectL ['u', 'l', 'l'] r).map fun rest => (.null, rest)
      else if c = 't' then (expectL ['r', 'u', 'e'] r).map fun rest => (.bool true, rest)
      else if c = 'f' then (expectL ['a', 'l', 's', 'e'] r).map fun rest => (.bool false, rest)
      else if c = '"' then (parseStrBody fuel r).map fun p => (.str p.1, p.2)
      else if c = '[' then
        match skipWs r with
        | [] => none
        | c2 :: rest =>
          if c2 = ']' then some (.arr .nil, rest)
          else (parseElems fuel r).map fun p => (.arr p.1, p.2)
      else if c = '\x7b' then
        match skipWs r with
        | [] => none
        | c2 :: rest =>
          if c2 = '\x7d' then some (.obj .nil, rest)
          else (parseMems fuel r).map fun p => (.obj p.1, p.2)
      else parseNumber (c :: r)

/-- Parse one or more comma-separated array elements and the closing `]`. -/
def parseElems : Nat → List Char → Option (JsonList × List Char)
  | 0, _ => none
  | fuel + 1, cs =>
    (parseVal fuel cs).bind fun p =>
    match skipWs p.2 with
    | [] => none
    | c :: r2 =>
      if c = ',' then (parseElems fuel r2).map fun q => (.cons p.1 q.1, q.2)
      else if c = ']' then some (.cons p.1 .nil, r2)
      else none

/-- Parse one or more comma-separated object members and the closing brace. -/
def parseMems : Nat → List Char → Option (JsonMems × List Char)
  | 0, _ => none
  | fuel + 1, cs =>
    match skipWs cs with
    | [] => none
    | c :: r =>
      if c = '"' then
        (parseStrBody fuel r).bind fun kp =>
        match skipWs kp.2 with
        | [] => none
        | c2 :: r2 =>
          if c2 = ':' then
            (parseVal fuel r2).bind fun vp =>
            match skipWs vp.2 with
            | [] => none
            | c3 :: r3 =>
              if c3 = ',' then (parseMems fuel r3).map fun q => (.cons kp.1 vp.1 q.1, q.2)
              else if c3 = '\x7d' then some (.cons kp.1 vp.1 .nil, r3)
              else none
          else none
      else none

end

/-- `JSON.parse`: parse a complete JSON text; trailing content other than
whitespace is an error. -/
def jsonParse (cs : List Char) : Option Json :=
  (parseVal (cs.length + 1) cs).bind fun p =>
  if (skipWs p.2).isEmpty then some p.1 else none

/-! ## Base64 (`atob` and base64url)

`decodeToken` maps `-`/`_` back to `+`/`/` and calls `atob`, which follows
the forgiving-base64 algorithm: strip ASCII whitespace, strip up to two
trailing `=` when the length is a multiple of four, fail on a remaining
length of 1 mod 4 or any character outside the alphabet, and discard
leftover bits of a final partial group. -/

/-- The standard base64 alphabet, indexed by sextet value. -/
def b64Alpha : List Char :=
  ['A', 'B', 'C', 'D', 'E', 'F', 'G', 'H', 'I', 'J', 'K', 'L', 'M',
   'N', 'O', 'P', 'Q', 'R', 'S', 'T', 'U', 'V', 'W', 'X', 'Y', 'Z',
   'a', 'b', 'c', 'd', 'e', 'f', 'g', 'h', 'i', 'j', 'k', 'l', 'm',
   'n', 'o', 'p', 'q', 'r', 's', 't', 'u', 'v', 'w', 'x', 'y', 'z',
   '0', '1', '2', '3', '4', '5', '6', '7', '8', '9', '+', '/']

/-- Character for a sextet value `v < 64`. -/
def b64CharOf (v : Nat) : Char := b64Alpha.getD v 'A'

/-- Sextet value of an alphabet character, `none` outside the alphabet. -/
def b64CharVal (c : Char) : Option Nat :=
  let i := b64Alpha.indexOf c
  if i < 64 then some i else none

/-- ASCII whitespace stripped by forgiving-base64. -/
def isB64Ws (c : Char) : Bool :=
  c.toNat = 9 || c.toNat = 10 || c.toNat = 12 || c.toNat = 13 || c.toNat = 32

/-- Strip one or two leading `=` (used on the reversed input). -/
def dropPadRev : List Char → List Char
  | [] => []
  | c :: t =>
    if c = '=' then
      match t with
      | [] => []
      | c2 :: t2 => if c2 = '=' then t2 else t
    else c :: t

/-- Strip up to two trailing `=` when the length is a multiple of four. -/
def stripPad (l : List Char) : List Char :=
  if l.length % 4 = 0 then (dropPadRev l.reverse).reverse else l

/-- Decode a list of sextet values into bytes (groups of four; a final group
of two or three yields one or two bytes, leftover bits discarded). -/
def decodeVals : List Nat → Option (List Nat)
  | [] => some []
  | [_] => none
  | [v1, v2] => some [v1 * 4 + v2 / 16]
  | [v1, v2, v3] => some [v1 * 4 + v2 / 16, v2 % 16 * 16 + v3 / 4]
  | v1 :: v2 :: v3 :: v4 :: rest =>
    (decodeVals rest).map fun t =>
      (v1 * 4 + v2 / 16) :: (v2 % 16 * 16 + v3 / 4) :: (v3 % 4 * 64 + v4) :: t

/-- Sextet values of the characters, `none` on any non-alphabet character. -/
def charVals : List Char → Option (List Nat)
  | [] => some []
  | c :: r => (b64CharVal c).bind fun v => (charVals r).map fun t => v :: t

/-- `atob`: forgiving-base64 decode to a byte list. -/
def atobL (cs : List Char) : Option (List Nat) :=
  let l1 := cs.filter fun c => !isB64Ws c
  let l2 := stripPad l1
  if l2.length % 4 = 1 then none
  else (charVals l2).bind decodeVals

/-- Map one base64url character back to the standard alphabet. -/
def stdOfUrlChar (c : Char) : Char :=
  if c = '-' then '+' else if c = '_' then '/' else c

/-- The replace step of `decodeToken` (dash to plus, underscore to slash):
map the base64url alphabet back to the standard one. -/
def b64Replace (cs : List Char) : List Char := cs.map stdOfUrlChar

/-- Sextet values of a byte list (three bytes into four sextets; one or two
trailing bytes into two or three sextets). -/
def b64Sextets : List Nat → List Nat
  | [] => []
  | [a] => [a / 4, a % 4 * 16]
  | [a, b] => [a / 4, a % 4 * 16 + b / 16, b % 16 * 4]
  | a :: b :: c :: rest =>
    (a / 4) :: (a % 4 * 16 + b / 16) :: (b % 16 * 4 + c / 64) :: (c % 64) :: b64Sextets rest

/-- Padding length of the base64 encoding of `bs`. -/
def b64PadLen (bs : List Nat) : Nat := (3 - bs.length % 3) % 3

/-- Standard (padded) base64 encoding of a byte list. -/
def base64Encode (bs : List Nat) : List Char :=
  (b64Sextets bs).map b64CharOf ++ List.replicate (b64PadLen bs) '='

/-- Map one standard base64 character to the url-safe alphabet. -/
def urlOfStdChar (c : Char) : Char :=
  if c = '+' then '-' else if c = '/' then '_' else c

/-- Base64url encoding (standard encoding with `+`/`/` replaced by
`-`/`_`), as used for JWT segments. -/
def b64UrlEncode (bs : List Nat) : List Char := (base64Encode bs).map urlOfStdChar

/-! ## UTF-8 via percent escapes

`decodeToken` turns each byte of the `atob` output into a `%xx` escape and
calls `decodeURIComponent`, which percent-decodes the bytes and interprets
them as UTF-8 (throwing on malformed sequences). -/

/-- The `"%" + ("00" + byte.toString(16)).slice(-2)` encoding of the byte
list, concatenated. -/
def percentHexEncode (bs : List Nat) : List Char :=
  bs.flatMap fun b => ['%', hexDigitOf (b / 16 % 16), hexDigitOf (b % 16)]

/-- Parse a fully percent-escaped string back into bytes. -/
def percentParse : List Char → Option (List Nat)
  | [] => some []
  | '%' :: h1 :: h2 :: r =>
    (hexVal h1).bind fun a =>
    (hexVal h2).bind fun b =>
    (percentParse r).map fun t => (a * 16 + b) :: t
  | _ => none

/-- Strict UTF-8 decoding of a byte list (rejects truncated sequences,
overlong forms, surrogate code points and values above `0x10ffff`), with
fuel bounding the number of produced characters. -/
def utf8DecodeAux : Nat → List Nat → Option (List Char)
  | _, [] => some []
  | 0, _ :: _ => none
  | fuel + 1, b :: rest =>
    if b < 0x80 then (utf8DecodeAux fuel rest).map fun t => Char.ofNat b :: t
    else if b < 0xc2 then none
    else if b < 0xe0 then
      match rest with
      | b2 :: r =>
        if 0x80 ≤ b2 ∧ b2 < 0xc0 then
          (utf8DecodeAux fuel r).map fun t => Char.ofNat ((b - 0xc0) * 64 + (b2 - 0x80)) :: t
        else none
      | _ => none
    else if b < 0xf0 then
      match rest with
      | b2 :: b3 :: r =>
        if (0x80 ≤ b2 ∧ b2 < 0xc0) ∧ (0x80 ≤ b3 ∧ b3 < 0xc0) then
          let n := (b - 0xe0) * 4096 + (b2 - 0x80) * 64 + (b3 - 0x80)
          if n < 0x800 ∨ (0xd800 ≤ n ∧ n < 0xe000) then none
          else (utf8DecodeAux fuel r).map fun t => Char.ofNat n :: t
        else none
      | _ => none
    else if b < 0xf5 then
      match rest with
      | b2 :: b3 :: b4 :: r =>
        if (0x80 ≤ b2 ∧ b2 < 0xc0) ∧ (0x80 ≤ b3 ∧ b3 < 0xc0) ∧ (0x80 ≤ b4 ∧ b4 < 0xc0) then
          let n := (b - 0xf0) * 262144 + (b2 - 0x80) * 4096 + (b3 - 0x80) * 64 + (b4 - 0x80)
          if n < 0x10000 ∨ 0x110000 ≤ n then none
          else (utf8DecodeAux fuel r).map fun t => Char.ofNat n :: t
        else none
      | _ => none
    else none

/-- Strict UTF-8 decoding of a byte list. -/
def utf8Decode (bs : List Nat) : Option (List Char) := utf8DecodeAux bs.length bs

/-- UTF-8 encoding of one Unicode scalar value. -/
def utf8EncodeChar (n : Nat) : List Nat :=
  if n < 0x80 then [n]
  else if n < 0x800 then [0xc0 + n / 64, 0x80 + n % 64]
  else if n < 0x10000 then [0xe0 + n / 4096, 0x80 + n / 64 % 64, 0x80 + n % 64]
  else [0xf0 + n / 262144, 0x80 + n / 4096 % 64, 0x80 + n / 64 % 64, 0x80 + n % 64]

/-- UTF-8 encoding of a string. -/
def utf8EncodeL (s : List Char) : List Nat := s.flatMap fun c => utf8EncodeChar c.toNat

/-- The `decodeURIComponent` call of `decodeToken`, specialized to its
actual input (a fully percent-escaped byte string): percent-decode the
bytes and interpret them as UTF-8. -/
def uriDecodeEscaped (cs : List Char) : Option (List Char) :=
  (percentParse cs).bind utf8Decode

/-! ## Token claims extraction (`decodeToken`)

From the account module: split the token on dots and require exactly three
segments; map dash to plus and underscore to slash in the middle segment;
run it through `atob`; percent-escape every byte of the result and run it
through `decodeURIComponent`; `JSON.parse` the resulting text. All of this
sits in a try/catch whose catch returns null, which collapses every
decoding failure to `none` below. -/

/-- `token.split(".")`: split on every dot, keeping empty segments. -/
def splitOnDot : List Char → List (List Char)
  | [] => [[]]
  | c :: r =>
    if c = '.' then [] :: splitOnDot r
    else
      match splitOnDot r with
      | [] => [[c]]
      | s :: ss => (c :: s) :: ss

/-- Claims extraction on a character list. -/
def decodeTokenL (cs : List Char) : Option Json :=
  let parts := splitOnDot cs
  if parts.length ≠ 3 then none
  else
    (atobL (b64Replace (parts.getD 1 []))).bind fun bytes =>
    (uriDecodeEscaped (percentHexEncode bytes)).bind fun text =>
    jsonParse text

/-- `decodeToken`: total claims extraction from a bearer-token string. -/
def decodeToken (token : String) : Option Json := decodeTokenL token.toList

/-! ## Token claims mapping and the `User` record

`extractUser` (KeycloakAuthProvider) reads the standard OIDC claims off the
client's parsed token. The parsed token is modelled as a record of the
standard claims (each possibly absent, since the TypeScript casts do not
create missing values at runtime) plus the remaining claims verbatim. -/

/-- A parsed token claims mapping: the standard profile claims plus all
remaining claims. -/
structure TokenParsed where
  sub : Option String
  email : Option String
  email_verified : Option Bool
  name : Option String
  given_name : Option String
  family_name : Option String
  preferred_username : Option String
  picture : Option String
  extra : List (String × Json)

/-- The `User` record of the auth context. `id` is `tokenParsed.sub` cast
to `string` in the source; at runtime the cast keeps an absent value, hence
`Option`. `claims` holds the whole parsed token, as in the source. -/
structure User where
  id : Option String
  email : Option String
  emailVerified : Option Bool
  name : Option String
  firstName : Option String
  lastName : Option String
  username : Option String
  imageUrl : Option String
  claims : TokenParsed

/-- The client fields `extractUser` consults. -/
structure KCSnap where
  idTokenParsed : Option TokenParsed
  tokenParsed : Option TokenParsed

/-- `extractUser`: `keycloak.idTokenParsed || keycloak.tokenParsed`, then
the fixed claim-to-field mapping, with the whole parsed token kept under
`claims`. -/
def extractUser (kc : KCSnap) : Option User :=
  match (match kc.idTokenParsed with | some tp => some tp | none => kc.tokenParsed) with
  | none => none
  | some tp =>
    some
      { id := tp.sub
        email := tp.email
        emailVerified := tp.email_verified
        name := tp.name
        firstName := tp.given_name
        lastName := tp.family_name
        username := tp.preferred_username
        imageUrl := tp.picture
        claims := tp }

/-! ## The `KeycloakAuthProvider` synchronizer as a state machine

The provider's mutable pieces: the React state (`keycloak` handle,
`isLoading`, `isAuthenticated`, `user`) and the two guard refs
(`initializingRef`, `initializedRef`). The external client object created
by the initialization effect carries the three registered handlers; one
boolean per handler records whether it is currently attached.

Events are the entry points the environment can drive: a run of the
initialization effect (mount / re-run of the setup logic), settlement of a
pending `init` call, the client's `onAuthSuccess` / `onAuthLogout` /
`onTokenExpired` callbacks, and disposal of the owning scope (the effect
cleanup — the source effect returns no cleanup function, so disposal runs
nothing). Each step returns the new state plus the externally observable
effects it emits, in order. -/

/-- Externally observable effects of the provider. -/
inductive Effect where
  | initCall : Effect
  | stateChanged (isAuthenticated : Bool) (user : Option User) : Effect
  | tokenExpiredCb : Effect
  | errorCb : Effect
  | loginCall (redirectUri : String) : Effect
  | logoutCall (redirectUri : String) : Effect
  | registerCall (redirectUri : String) : Effect
  | updateTokenCall (minValidity : Nat) : Effect

/-- Provider state: React state plus guard refs plus the handler slots of
the current external client object. -/
structure PState where
  keycloak : Bool
  isLoading : Bool
  isAuthenticated : Bool
  user : Option User
  initializing : Bool
  initialized : Bool
  pendingInit : Bool
  hOnAuthSuccess : Bool
  hOnAuthLogout : Bool
  hOnTokenExpired : Bool

/-- Events driving the provider. -/
inductive PEvent where
  | runEffect : PEvent
  | initResolve (authenticated : Bool) (kc : KCSnap) : PEvent
  | initReject : PEvent
  | authSuccess (kc : KCSnap) : PEvent
  | authLogout : PEvent
  | tokenExpired : PEvent
  | dispose : PEvent

/-- The provider state before the first render. -/
def initialState : PState :=
  { keycloak := false
    isLoading := true
    isAuthenticated := false
    user := none
    initializing := false
    initialized := false
    pendingInit := false
    hOnAuthSuccess := false
    hOnAuthLogout := false
    hOnTokenExpired := false }

/-- One step of the provider: the handling of a single event, returning the
new state and the effects emitted. -/
def step (s : PState) : PEvent → PState × List Effect
  | .runEffect =>
    if s.initializing || s.initialized then (s, [])
    else
      ({ s with
          initializing := true
          pendingInit := true
          hOnAuthSuccess := true
          hOnAuthLogout := true
          hOnTokenExpired := true },
       [.initCall])
  | .initResolve authenticated kc =>
    if s.pendingInit then
      let u := if authenticated then extractUser kc else none
      ({ s with
          initialized := true
          initializing := false
          pendingInit := false
          keycloak := true
          isAuthenticated := authenticated
          user := u
          isLoading := false },
       [.stateChanged authenticated u])
    else (s, [])
  | .initReject =>
    if s.pendingInit then
      ({ s with initializing := false, pendingInit := false, isLoading := false },
       [.errorCb])
    else (s, [])
  | .authSuccess kc =>
    if s.hOnAuthSuccess then
      let u := extractUser kc
      ({ s with isAuthenticated := true, user := u }, [.stateChanged true u])
    else (s, [])
  | .authLogout =>
    if s.hOnAuthLogout then
      ({ s with isAuthenticated := false, user := none }, [.stateChanged false none])
    else (s, [])
  | .tokenExpired =>
    if s.hOnTokenExpired then
      ({ s with isAuthenticated := false, user := none },
       [.stateChanged false none, .tokenExpiredCb])
    else (s, [])
  | .dispose => (s, [])

/-- Run the provider over an event sequence, accumulating effects. -/
def run (s : PState) : List PEvent → PState × List Effect
  | [] => (s, [])
  | e :: t =>
    let p := step s e
    let q := run p.1 t
    (q.1, p.2 ++ q.2)

/-- Does an effect call the external client's `init`? -/
def isInitCall : Effect → Bool
  | .initCall => true
  | _ => false

/-- Does an effect call the external client's `updateToken`? -/
def isUpdateTokenCall : Effect → Bool
  | .updateTokenCall _ => true
  | _ => false

/-- Number of `init` calls in an effect trace. -/
def countInits (l : List Effect) : Nat := l.countP fun e => isInitCall e

/-- Is the event a run of the initialization effect? -/
def isRunEffect : PEvent → Bool
  | .runEffect => true
  | _ => false

/-- Is the event a rejection of a pending `init`? -/
def isInitReject : PEvent → Bool
  | .initReject => true
  | _ => false

/-! ## Context operations (`signIn`, `signOut`, `signUp`, `getToken`)

Each operation closes over the `keycloak` React state; when the handle is
null it returns immediately. `getToken` awaits `updateToken(30)` and
returns `keycloak.token`, resolving to `undefined` when the refresh
rejects. The external client's behaviour at the call is summarized by a
`KCRun` record. -/

/-- External client behaviour at an operation call: whether `updateToken`
succeeds, and the current access token. -/
structure KCRun where
  updateTokenOk : Bool
  token : Option String

/-- JavaScript `a || b` on an optional string (empty string is falsy). -/
def jsOrStr (a : Option String) (b : String) : String :=
  match a with
  | some s => if s = "" then b else s
  | none => b

/-- `signIn`: no-op without a client handle, else `login` with the given
redirect URI defaulted to `window.location.href`. -/
def signIn (keycloak : Option KCRun) (redirectUri : Option String) (locationHref : String) :
    List Effect :=
  match keycloak with
  | none => []
  | some _ => [.loginCall (jsOrStr redirectUri locationHref)]

/-- `signOut`: no-op without a client handle, else `logout` with the given
redirect URI defaulted to `window.location.origin`. -/
def signOut (keycloak : Option KCRun) (redirectUri : Option String) (locationOrigin : String) :
    List Effect :=
  match keycloak with
  | none => []
  | some _ => [.logoutCall (jsOrStr redirectUri locationOrigin)]

/-- `signUp`: no-op without a client handle, else `register` with the given
redirect URI defaulted to `window.location.href`. -/
def signUp (keycloak : Option KCRun) (redirectUri : Option String) (locationHref : String) :
    List Effect :=
  match keycloak with
  | none => []
  | some _ => [.registerCall (jsOrStr redirectUri locationHref)]

/-- `getToken`: resolve to `undefined` without a client handle; else await
`updateToken(30)` and return `keycloak.token`, or `undefined` when the
refresh rejected. Returns the resolved value and the client calls made. -/
def getToken (keycloak : Option KCRun) : Option String × List Effect :=
  match keycloak with
  | none => (none, [])
  | some kc =>
    if kc.updateTokenOk then (kc.token, [.updateTokenCall 30])
    else (none, [.updateTokenCall 30])

/-! ## The `Protect` role guard -/

/-- The role-query capability of the external client. -/
structure KCRoles where
  hasResourceRole : String → Bool
  hasRealmRole : String → Bool

/-- The shapes the `fallback` prop can take. -/
inductive FallbackProp where
  | staticNode : FallbackProp
  | renderFn : FallbackProp

/-- What `Protect` renders. -/
inductive ProtectOutcome where
  | loadingView : ProtectOutcome
  | signInRedirect : ProtectOutcome
  | fallbackStaticView : ProtectOutcome
  | fallbackFnView : ProtectOutcome
  | deniedNull : ProtectOutcome
  | content : ProtectOutcome
deriving DecidableEq

/-- Does the resource-role prop block rendering? Mirrors the source
condition: the check runs only when the prop is a non-empty list and the
client handle is non-null, and blocks unless some listed role is held. -/
def resourceRolesBlock (keycloak : Option KCRoles) (roles : Option (List String)) : Bool :=
  match roles with
  | none => false
  | some rs =>
    match keycloak with
    | none => false
    | some k => decide (rs.length > 0) && !(rs.any fun r => k.hasResourceRole r)

/-- Does the realm-role prop block rendering? Same shape as
`resourceRolesBlock` with the realm-role query. -/
def realmRolesBlock (keycloak : Option KCRoles) (realmRoles : Option (List String)) : Bool :=
  match realmRoles with
  | none => false
  | some rs =>
    match keycloak with
    | none => false
    | some k => decide (rs.length > 0) && !(rs.any fun r => k.hasRealmRole r)

/-- The `Protect` component as a function of the auth context and its
props. Mirrors the source: loading short-circuits; unauthenticated renders
the fallback (or starts sign-in when none was given); then the
resource-role check, then the realm-role check, each hiding the content
when it blocks; else the children render. -/
def protectRender (isLoading isAuthenticated : Bool) (keycloak : Option KCRoles)
    (roles realmRoles : Option (List String)) (fallback : Option FallbackProp) :
    ProtectOutcome :=
  if isLoading then .loadingView
  else if !isAuthenticated then
    match fallback with
    | none => .signInRedirect
    | some .renderFn => .fallbackFnView
    | some .staticNode => .fallbackStaticView
  else if resourceRolesBlock keycloak roles then .deniedNull
  else if realmRolesBlock keycloak realmRoles then .deniedNull
  else .content

/-- The spec-side reading of a role requirement: a listed role is "held"
only if the role-query capability is present and reports it; an absent
capability means no role is held. Used to state the visibility claim. -/
def roleReqSatisfied (capability : Option KCRoles) (queryRealm : Bool) (rs : List String) :
    Bool :=
  rs.any fun r =>
    match capability with
    | some k => if queryRealm then k.hasRealmRole r else k.hasResourceRole r
    | none => false

/-! ## `UserButton` / `UserAvatar` field resolution

Both components resolve each displayed field as
explicit prop, else token claim, else auth-context user field,
with JavaScript nullish coalescing. -/

/-- The `UserTokenClaims` record of the account module. -/
structure UserTokenClaims where
  picture : Option String
  name : Option String
  given_name : Option String
  family_name : Option String
  preferred_username : Option String
  email : Option String
  sub : Option String

/-- JavaScript nullish coalescing on optional values. -/
def nullish (a b : Option String) : Option String :=
  match a with
  | some v => some v
  | none => b

/-- `UserButton`: resolved image URL. -/
def resolvedImageUrl (imageUrl : Option String) (tokenClaims : Option UserTokenClaims)
    (contextUser : Option User) : Option String :=
  nullish imageUrl (nullish (tokenClaims.bind UserTokenClaims.picture)
    (contextUser.bind User.imageUrl))

/-- `UserButton`: resolved first name. -/
def resolvedFirstName (firstName : Option String) (tokenClaims : Option UserTokenClaims)
    (contextUser : Option User) : Option String :=
  nullish firstName (nullish (tokenClaims.bind UserTokenClaims.given_name)
    (contextUser.bind User.firstName))

/-- `UserButton`: resolved last name. -/
def resolvedLastName (lastName : Option String) (tokenClaims : Option UserTokenClaims)
    (contextUser : Option User) : Option String :=
  nullish lastName (nullish (tokenClaims.bind UserTokenClaims.family_name)
    (contextUser.bind User.lastName))

/-- `UserButton`: resolved full name. -/
def resolvedName (name : Option String) (tokenClaims : Option UserTokenClaims)
    (contextUser : Option User) : Option String :=
  nullish name (nullish (tokenClaims.bind UserTokenClaims.name)
    (contextUser.bind User.name))

/-- `UserButton`: resolved email. -/
def resolvedEmail (email : Option String) (tokenClaims : Option UserTokenClaims)
    (contextUser : Option User) : Option String :=
  nullish email (nullish (tokenClaims.bind UserTokenClaims.email)
    (contextUser.bind User.email))

/-! ### Concrete inputs used by witnesses -/

/-- A concrete parsed token: the spec's example payload. -/
def tpW : TokenParsed :=
  ⟨some "u1", none, none, none, some "A", some "B", none, none, []⟩

/-- A client snapshot reporting `tpW` as the parsed ID token. -/
def kcW : KCSnap := ⟨some tpW, none⟩

/-- The `User` record the projection produces from `tpW`. -/
def uW : User :=
  { id := some "u1", email := none, emailVerified := none, name := none,
    firstName := some "A", lastName := some "B", username := none, imageUrl := none,
    claims := tpW }

/-! # Theorems -/

/-- Init calls in a concatenated trace add up. -/
theorem countInits_append (a b : List Effect) :
    countInits (a ++ b) = countInits a + countInits b :=
  List.countP_append _ a b

/-- One-step facts for init counting: an event other than a rejection of a
pending `init` (given the in-flight invariant) emits an `init` call exactly
when it is an effect run from a state with neither guard flag set, the
disjunction of the two guard flags only ever grows (becoming set on an
effect run), and the in-flight invariant is preserved. -/
theorem step_initFacts (s : PState) (e : PEvent)
    (hnr : (!isInitReject e) = true)
    (hinv : s.pendingInit = true → s.initializing = true) :
    countInits (step s e).2 =
        (if (!(s.initializing || s.initialized)) && isRunEffect e then 1 else 0) ∧
    ((step s e).1.initializing || (step s e).1.initialized) =
        ((s.initializing || s.initialized) || isRunEffect e) ∧
    ((step s e).1.pendingInit = true → (step s e).1.initializing = true) := by
  cases e with
  | runEffect =>
    by_cases hf : (s.initializing || s.initialized) = true
    · refine ⟨?_, ?_, ?_⟩
      · simp [step, hf, countInits]
      · simp [step, hf]
      · simp only [step, hf, if_true]
        exact hinv
    · have hf' : (s.initializing || s.initialized) = false := by
        simpa using hf
      refine ⟨?_, ?_, ?_⟩
      · simp [step, hf', countInits, isInitCall, isRunEffect]
      · simp [step, hf', isRunEffect]
      · simp [step, hf']
  | initResolve b kc =>
    by_cases hp : s.pendingInit = true
    · have hi := hinv hp
      refine ⟨?_, ?_, ?_⟩
      · simp [step, hp, countInits, isInitCall, isRunEffect, hi]
      · simp [step, hp, hi, isRunEffect]
      · simp [step, hp]
    · have hp' : s.pendingInit = false := by simpa using hp
      refine ⟨?_, ?_, ?_⟩
      · simp [step, hp', countInits, isRunEffect]
      · simp [step, hp', isRunEffect]
      · simp only [step, hp', Bool.false_eq_true, if_false]
        exact fun h => absurd h (by simp [hp'])
  | initReject => simp [isInitReject] at hnr
  | authSuccess kc =>
    by_cases hh : s.hOnAuthSuccess = true
    · refine ⟨?_, ?_, ?_⟩
      · simp [step, hh, countInits, isInitCall, isRunEffect]
      · simp [step, hh, isRunEffect]
      · simp only [step, hh, if_true]
        exact hinv
    · have hh' : s.hOnAuthSuccess = false := by simpa using hh
      refine ⟨?_, ?_, ?_⟩
      · simp [step, hh', countInits, isRunEffect]
      · simp [step, hh', isRunEffect]
      · simp only [step, hh', Bool.false_eq_true, if_false]
        exact hinv
  | authLogout =>
    by_cases hh : s.hOnAuthLogout = true
    · refine ⟨?_, ?_, ?_⟩
      · simp [step, hh, countInits, isInitCall, isRunEffect]
      · simp [step, hh, isRunEffect]
      · simp only [step, hh, if_true]
        exact hinv
    · have hh' : s.hOnAuthLogout = false := by simpa using hh
      refine ⟨?_, ?_, ?_⟩
      · simp [step, hh', countInits, isRunEffect]
      · simp [step, hh', isRunEffect]
      · simp only [step, hh', Bool.false_eq_true, if_false]
        exact hinv
  | tokenExpired =>
    by_cases hh : s.hOnTokenExpired = true
    · refine ⟨?_, ?_, ?_⟩
      · simp [step, hh, countInits, isInitCall, isRunEffect]
      · simp [step, hh, isRunEffect]
      · simp only [step, hh, if_true]
        exact hinv
    · have hh' : s.hOnTokenExpired = false := by simpa using hh
      refine ⟨?_, ?_, ?_⟩
      · simp [step, hh', countInits, isRunEffect]
      · simp [step, hh', isRunEffect]
      · simp only [step, hh', Bool.false_eq_true, if_false]
        exact hinv
  | dispose =>
    refine ⟨?_, ?_, ?_⟩
    · simp [step, countInits, isRunEffect]
    · simp [step, isRunEffect]
    · exact hinv

/-- Trace-level init counting: along a trace without `init` rejections,
from a state satisfying the in-flight invariant, no `init` call is made if
a guard flag is already set, and exactly one is made per first effect run
otherwise. -/
theorem countInits_run (evs : List PEvent) (s : PState)
    (hnr : evs.all (fun e => !isInitReject e) = true)
    (hinv : s.pendingInit = true → s.initializing = true) :
    countInits (run s evs).2 =
      if s.initializing || s.initialized then 0
      else if evs.any isRunEffect then 1 else 0 := by
  induction evs generalizing s with
  | nil => simp [run, countInits]
  | cons e t ih =>
    have hnr' : (!isInitReject e) = true ∧ (t.all fun e => !isInitReject e) = true := by
      simpa using hnr
    obtain ⟨hc, hflag, hinv'⟩ := step_initFacts s e hnr'.1 hinv
    rw [show (run s (e :: t)).2 = (step s e).2 ++ (run (step s e).1 t).2 from rfl,
      countInits_append, hc, ih _ hnr'.2 hinv', hflag]
    cases hf : (s.initializing || s.initialized) <;>
      cases hre : isRunEffect e <;>
      cases ht : t.any isRunEffect <;>
      simp [List.any_cons, hre, ht]

/-- C1, counterexample: a setup run whose `init` call rejects, followed by
another setup run, invokes the external client's `init` twice. The claim's
"exactly once, including invocations after a previous attempt failed" fails
on the code: a rejection resets the in-progress flag without setting the
completed flag, so the next setup run passes the guard again. -/
theorem c1_counterexample :
    countInits (run initialState [.runEffect, .initReject, .runEffect]).2 = 2 := by
  rfl

/-- C1, amended: for every event sequence against the same synchronizer
instance in which no initialization attempt fails, no matter how many times
the owning scope's setup logic runs, the underlying client's `init` is
invoked exactly once, enforced by the two guard flags. -/
theorem c1_theorem (evs : List PEvent)
    (hnr : evs.all (fun e => !isInitReject e) = true)
    (hre : evs.any isRunEffect = true) :
    countInits (run initialState evs).2 = 1 := by
  rw [countInits_run evs initialState hnr (by intro h; simp [initialState] at h)]
  simp [initialState, hre]

/-- C1, witness: two duplicate setup runs yield one `init` call. -/
theorem c1_witness : countInits (run initialState [.runEffect, .runEffect]).2 = 1 :=
  c1_theorem [.runEffect, .runEffect] (by decide) (by decide)

/-! ## Disposal and callback detachment (C2) -/

/-- C2, counterexample: after a setup run followed by disposal of the
owning scope, all three callbacks the synchronizer registered on the
external client (`onAuthSuccess`, `onAuthLogout`, `onTokenExpired`) are
still attached — the claimed detachment on disposal does not happen. -/
theorem c2_counterexample :
    (run initialState [.runEffect, .dispose]).1.hOnAuthSuccess = true ∧
    (run initialState [.runEffect, .dispose]).1.hOnAuthLogout = true ∧
    (run initialState [.runEffect, .dispose]).1.hOnTokenExpired = true :=
  ⟨rfl, rfl, rfl⟩

/-- C2, amended: when the owning scope ends, the synchronizer detaches
nothing and performs no action at all: the initialization effect registers
no cleanup, so appending a disposal to any event sequence leaves both the
final state (including every registered client callback) and the emitted
effects unchanged. -/
theorem c2_theorem (s : PState) (evs : List PEvent) :
    run s (evs ++ [.dispose]) = run s evs := by
  induction evs generalizing s with
  | nil => rfl
  | cons e t ih =>
    rw [List.cons_append,
      show run s (e :: (t ++ [PEvent.dispose])) =
        ((run (step s e).1 (t ++ [PEvent.dispose])).1,
          (step s e).2 ++ (run (step s e).1 (t ++ [PEvent.dispose])).2) from rfl,
      ih, show ((run (step s e).1 t).1, (step s e).2 ++ (run (step s e).1 t).2) =
        run s (e :: t) from rfl]

/-! ## Token expiry handling (C7) -/

/-- C7: from an authenticated session with the expiry handler attached, a
token-expiry event demotes the snapshot to unauthenticated with no user,
emits exactly the state-changed notification with `(false, none)` followed
by the expiry notification, and makes no `updateToken` (refresh) call. -/
theorem c7_theorem (s : PState) (hH : s.hOnTokenExpired = true)
    (_hAuth : s.isAuthenticated = true) :
    (step s .tokenExpired).1.isAuthenticated = false ∧
    (step s .tokenExpired).1.user = none ∧
    (step s .tokenExpired).2 = [.stateChanged false none, .tokenExpiredCb] ∧
    (step s .tokenExpired).2.all (fun e => !isUpdateTokenCall e) = true := by
  simp [step, hH, isUpdateTokenCall]

/-- C7, witness: the expiry transition evaluated at a concrete
authenticated state. -/
theorem c7_witness :
    (step { initialState with hOnTokenExpired := true, isAuthenticated := true }
        .tokenExpired).1.isAuthenticated = false ∧
    (step { initialState with hOnTokenExpired := true, isAuthenticated := true }
        .tokenExpired).1.user = none ∧
    (step { initialState with hOnTokenExpired := true, isAuthenticated := true }
        .tokenExpired).2 = [.stateChanged false none, .tokenExpiredCb] ∧
    (step { initialState with hOnTokenExpired := true, isAuthenticated := true }
        .tokenExpired).2.all (fun e => !isUpdateTokenCall e) = true :=
  c7_theorem { initialState with hOnTokenExpired := true, isAuthenticated := true } rfl rfl

/-! ## Token retrieval (C8, C10) -/

/-- C8: with a client handle present (initialization completed
successfully), `getToken` makes exactly one `updateToken(30)` call and then
returns the client's current access token; when the refresh attempt
rejects, it resolves to `undefined` (and, being a total function into
`Option`, never throws). -/
theorem c8_theorem (kc : KCRun) :
    (getToken (some kc)).2 = [.updateTokenCall 30] ∧
    (kc.updateTokenOk = true → (getToken (some kc)).1 = kc.token) ∧
    (kc.updateTokenOk = false → (getToken (some kc)).1 = none) := by
  cases h : kc.updateTokenOk <;> simp [getToken, h]

/-- C8, witness: `getToken` evaluated at concrete client behaviours. -/
theorem c8_witness :
    (getToken (some ⟨true, some "tok"⟩)).1 = some "tok" ∧
    (getToken (some ⟨false, some "tok"⟩)).1 = none :=
  ⟨(c8_theorem ⟨true, some "tok"⟩).2.1 rfl, (c8_theorem ⟨false, some "tok"⟩).2.2 rfl⟩

/-- C10: while the external client handle is null, `signIn`, `signOut` and
`signUp` return without invoking any client method, and `getToken`
resolves to `undefined` with no client call. -/
theorem c10_theorem :
    getToken none = (none, []) ∧
    (∀ uri loc, signIn none uri loc = []) ∧
    (∀ uri loc, signOut none uri loc = []) ∧
    (∀ uri loc, signUp none uri loc = []) :=
  ⟨rfl, fun _ _ => rfl, fun _ _ => rfl, fun _ _ => rfl⟩

/-! ## User projection (C9) -/

/-- C9: whichever parsed token the client reports (ID token preferred, else
access token), the `User` projection maps `sub` to `id`, `email` to
`email`, `email_verified` to `emailVerified`, `name` to `name`,
`given_name` to `firstName`, `family_name` to `lastName`,
`preferred_username` to `username`, `picture` to `imageUrl`, and keeps the
whole claims mapping — in particular every remaining claim — verbatim under
`claims`. -/
theorem c9_theorem (kc : KCSnap) (tp : TokenParsed) (u : User)
    (htp : kc.idTokenParsed = some tp ∨ (kc.idTokenParsed = none ∧ kc.tokenParsed = some tp))
    (hu : extractUser kc = some u) :
    u.id = tp.sub ∧ u.email = tp.email ∧ u.emailVerified = tp.email_verified ∧
    u.name = tp.name ∧ u.firstName = tp.given_name ∧ u.lastName = tp.family_name ∧
    u.username = tp.preferred_username ∧ u.imageUrl = tp.picture ∧ u.claims = tp := by
  rcases htp with h | ⟨h1, h2⟩
  · simp only [extractUser, h, Option.some.injEq] at hu
    subst hu
    exact ⟨rfl, rfl, rfl, rfl, rfl, rfl, rfl, rfl, rfl⟩
  · simp only [extractUser, h1, h2, Option.some.injEq] at hu
    subst hu
    exact ⟨rfl, rfl, rfl, rfl, rfl, rfl, rfl, rfl, rfl⟩

/-- C9, witness: the projection evaluated on the spec's example payload
with `sub`, `given_name` and `family_name` present. -/
theorem c9_witness :
    uW.id = tpW.sub ∧ uW.email = tpW.email ∧ uW.emailVerified = tpW.email_verified ∧
    uW.name = tpW.name ∧ uW.firstName = tpW.given_name ∧ uW.lastName = tpW.family_name ∧
    uW.username = tpW.preferred_username ∧ uW.imageUrl = tpW.picture ∧ uW.claims = tpW :=
  c9_theorem kcW tpW uW (Or.inl rfl) rfl

/-! ## Role-gated visibility (C3) -/

/-- C3, counterexample: an authenticated, non-loading snapshot whose client
handle is null, guarded with resource roles `["admin"]`: the claim demands
the content be hidden (absent role-query capability means no role is held),
but the code skips the role check entirely when the handle is null and
renders the content. -/
theorem c3_counterexample :
    ¬ ((protectRender false true none (some ["admin"]) none none =
          ProtectOutcome.content) ↔
        roleReqSatisfied none false ["admin"] = true) := by
  decide

/-- C3, amended: on an authenticated, non-loading snapshot, when the client
handle is present, guarded content is visible if and only if every
specified non-empty role set (resource roles, realm roles) contains at
least one role the client reports as held (OR within a set, AND between the
sets); when the client handle — the role-query capability — is absent, the
role checks are skipped and the content is shown. -/
theorem c3_theorem (k : KCRoles) (roles realmRoles : Option (List String))
    (fallback : Option FallbackProp) :
    (protectRender false true (some k) roles realmRoles fallback = .content ↔
      ((∀ rs, roles = some rs → rs ≠ [] → rs.any k.hasResourceRole = true) ∧
       (∀ rs, realmRoles = some rs → rs ≠ [] → rs.any k.hasRealmRole = true))) ∧
    protectRender false true none roles realmRoles fallback = .content := by
  constructor
  · rcases roles with _ | rs <;> rcases realmRoles with _ | rrs
    · simp [protectRender, resourceRolesBlock, realmRolesBlock]
    · by_cases he : rrs = [] <;> cases hr : rrs.any k.hasRealmRole <;>
        simp_all [protectRender, resourceRolesBlock, realmRolesBlock,
          List.length_pos_iff_ne_nil]
    · by_cases he : rs = [] <;> cases hr : rs.any k.hasResourceRole <;>
        simp_all [protectRender, resourceRolesBlock, realmRolesBlock,
          List.length_pos_iff_ne_nil]
    · by_cases he : rs = [] <;> cases hr : rs.any k.hasResourceRole <;>
        by_cases he2 : rrs = [] <;> cases hr2 : rrs.any k.hasRealmRole <;>
        simp_all [protectRender, resourceRolesBlock, realmRolesBlock,
          List.length_pos_iff_ne_nil]
      obtain ⟨x, hx, hxr⟩ := hr
      obtain ⟨y, hy, hyr⟩ := hr2
      have h1 : ¬ (∀ z ∈ rs, k.hasResourceRole z = false) := fun hall =>
        absurd hxr (by simp [hall x hx])
      have h2 : ¬ (∀ z ∈ rrs, k.hasRealmRole z = false) := fun hall =>
        absurd hyr (by simp [hall y hy])
      rw [if_neg h1, if_neg h2]
  · rcases roles with _ | rs <;> rcases realmRoles with _ | rrs <;>
      simp [protectRender, resourceRolesBlock, realmRolesBlock]

/-- C3, witness: with the client handle present and an `admin` resource
role held, guarded content is visible; the second conjunct of the theorem
instantiated shows the handle-absent behaviour. -/
theorem c3_witness :
    protectRender false true (some ⟨fun r => r = "admin", fun _ => false⟩)
      (some ["admin"]) none none = ProtectOutcome.content :=
  ((c3_theorem ⟨fun r => r = "admin", fun _ => false⟩ (some ["admin"]) none none).1).2
    ⟨fun rs h _ => by
        cases h
        simp [List.any_cons],
      fun rs h _ => by cases h⟩

/-! ## Field resolution precedence (C6) -/

/-- C6: for each displayed user field (image URL, first name, last name,
full name, email), the resolved value equals the explicit caller-supplied
prop when present, else the token claim for that field when present, else
the auth-context user's field. -/
theorem c6_theorem (e : Option String) (tc : Option UserTokenClaims)
    (cu : Option User) :
    ((∀ v, e = some v → resolvedImageUrl e tc cu = some v) ∧
      (e = none → ∀ v, tc.bind UserTokenClaims.picture = some v →
        resolvedImageUrl e tc cu = some v) ∧
      (e = none → tc.bind UserTokenClaims.picture = none →
        resolvedImageUrl e tc cu = cu.bind User.imageUrl)) ∧
    ((∀ v, e = some v → resolvedFirstName e tc cu = some v) ∧
      (e = none → ∀ v, tc.bind UserTokenClaims.given_name = some v →
        resolvedFirstName e tc cu = some v) ∧
      (e = none → tc.bind UserTokenClaims.given_name = none →
        resolvedFirstName e tc cu = cu.bind User.firstName)) ∧
    ((∀ v, e = some v → resolvedLastName e tc cu = some v) ∧
      (e = none → ∀ v, tc.bind UserTokenClaims.family_name = some v →
        resolvedLastName e tc cu = some v) ∧
      (e = none → tc.bind UserTokenClaims.family_name = none →
        resolvedLastName e tc cu = cu.bind User.lastName)) ∧
    ((∀ v, e = some v → resolvedName e tc cu = some v) ∧
      (e = none → ∀ v, tc.bind UserTokenClaims.name = some v →
        resolvedName e tc cu = some v) ∧
      (e = none → tc.bind UserTokenClaims.name = none →
        resolvedName e tc cu = cu.bind User.name)) ∧
    ((∀ v, e = some v → resolvedEmail e tc cu = some v) ∧
      (e = none → ∀ v, tc.bind UserTokenClaims.email = some v →
        resolvedEmail e tc cu = some v) ∧
      (e = none → tc.bind UserTokenClaims.email = none →
        resolvedEmail e tc cu = cu.bind User.email)) := by
  refine ⟨⟨?_, ?_, ?_⟩, ⟨?_, ?_, ?_⟩, ⟨?_, ?_, ?_⟩, ⟨?_, ?_, ?_⟩, ⟨?_, ?_, ?_⟩⟩ <;>
    intros <;>
    simp_all only [resolvedImageUrl, resolvedFirstName, resolvedLastName, resolvedName,
      resolvedEmail, nullish]

/-- C6, witness: an explicit prop wins over a present token claim; with no
explicit prop, the token claim wins over the context user. -/
theorem c6_witness :
    resolvedImageUrl (some "x") (some ⟨some "t", none, none, none, none, none, none⟩)
      none = some "x" ∧
    resolvedImageUrl none (some ⟨some "t", none, none, none, none, none, none⟩)
      none = some "t" :=
  ⟨((c6_theorem (some "x") (some ⟨some "t", none, none, none, none, none, none⟩)
      none).1).1 "x" rfl,
    ((c6_theorem none (some ⟨some "t", none, none, none, none, none, none⟩)
      none).1).2.1 rfl "t" rfl⟩

/-! ## Character arithmetic helpers -/

/-- Characters are equal iff their code points are. -/
theorem char_eq_iff_toNat (c d : Char) : c = d ↔ c.toNat = d.toNat := by
  constructor
  · rintro rfl; rfl
  · intro h
    exact Char.ext (UInt32.toNat.inj h)

/-- Every character's code point is below `0x110000`. -/
theorem char_toNat_lt (c : Char) : c.toNat < 0x110000 := by
  rcases c.valid with h | ⟨h1, h2⟩
  · have h' : c.val.toNat < 0xd800 := by simpa using h
    show c.val.toNat < 0x110000
    omega
  · have h' : c.val.toNat < 0x110000 := by simpa using h2
    exact h'

/-- No character's code point is a UTF-16 surrogate. -/
theorem char_toNat_not_surr (c : Char) : c.toNat < 0xd800 ∨ 0xdfff < c.toNat := by
  rcases c.valid with h | ⟨h1, h2⟩
  · exact Or.inl (by simpa using h)
  · exact Or.inr (by simpa using h1)

/-- Code point of `Char.ofNat` at a valid scalar value. -/
theorem char_toNat_ofNat (n : Nat) (h : Nat.isValidChar n) : (Char.ofNat n).toNat = n := by
  rw [Char.ofNat, dif_pos h]
  simp [Char.ofNatAux, Char.toNat, UInt32.ofNat', UInt32.toNat, BitVec.ofNatLt]

/-- Code point of a decimal digit character. -/
theorem digitOf_toNat (d : Nat) (h : d < 10) : (digitOf d).toNat = 48 + d := by
  have hv : Nat.isValidChar (48 + d) := Or.inl (by omega)
  simpa [digitOf] using char_toNat_ofNat (48 + d) hv

/-- Digit characters pass the digit test. -/
theorem isDigitC_digitOf (d : Nat) (h : d < 10) : isDigitC (digitOf d) = true := by
  simp only [isDigitC, digitOf_toNat d h, decide_eq_true_eq]
  omega

/-- Hex digits round-trip through `hexVal`. -/
theorem hexVal_hexDigitOf (d : Nat) (h : d < 16) : hexVal (hexDigitOf d) = some d := by
  interval_cases d <;> decide

/-- Skipping whitespace before a non-whitespace character is the identity. -/
theorem skipWs_cons (c : Char) (t : List Char) (h : isJsonWs c = false) :
    skipWs (c :: t) = c :: t := by
  simp [skipWs, List.dropWhile_cons, h]

/-- A literal tail is matched and consumed. -/
theorem expectL_append (lit r : List Char) : expectL lit (lit ++ r) = some r := by
  induction lit with
  | nil => rfl
  | cons e t ih => simp [expectL, ih]

/-- Dot-splitting never yields an empty segment list. -/
theorem splitOnDot_ne_nil (l : List Char) : splitOnDot l ≠ [] := by
  cases l with
  | nil => simp [splitOnDot]
  | cons c r =>
    by_cases h : c = '.'
    · simp [splitOnDot, h]
    · simp only [splitOnDot, h, if_false]
      cases splitOnDot r <;> simp

/-- Dot-splitting a dot-free list yields that single segment. -/
theorem splitOnDot_no_dot (l : List Char) (h : '.' ∉ l) : splitOnDot l = [l] := by
  induction l with
  | nil => rfl
  | cons c r ih =>
    have hc : ¬ c = '.' := fun hc => h (by simp [hc])
    have hr : '.' ∉ r := fun hr => h (by simp [hr])
    simp only [splitOnDot, hc, if_false, ih hr]

/-- Dot-splitting peels a dot-free first segment at its following dot. -/
theorem splitOnDot_append (l rest : List Char) (h : '.' ∉ l) :
    splitOnDot (l ++ '.' :: rest) = l :: splitOnDot rest := by
  induction l with
  | nil => simp [splitOnDot]
  | cons c t ih =>
    have hc : ¬ c = '.' := fun hc => h (by simp [hc])
    have ht : '.' ∉ t := fun hm => h (by simp [hm])
    simp only [List.cons_append, splitOnDot, hc, if_false]
    rw [show t.append ('.' :: rest) = t ++ '.' :: rest from rfl, ih ht]

/-! ## Base64 round-trip lemmas -/

/-- Alphabet-character facts, by enumeration of the 64 sextet values. -/
theorem b64CharOf_facts (v : Nat) (h : v < 64) :
    b64CharVal (b64CharOf v) = some v ∧
    isB64Ws (b64CharOf v) = false ∧
    b64CharOf v ≠ '=' ∧
    stdOfUrlChar (urlOfStdChar (b64CharOf v)) = b64CharOf v ∧
    urlOfStdChar (b64CharOf v) ≠ '.' := by
  interval_cases v <;> decide

/-- All sextet values of in-range bytes are in range. -/
theorem b64Sextets_lt : ∀ (bs : List Nat), (∀ b ∈ bs, b < 256) →
    ∀ v ∈ b64Sextets bs, v < 64
  | [], _ => by simp [b64Sextets]
  | [a], hb => by
    have ha := hb a (by simp)
    intro v hv
    simp only [b64Sextets, List.mem_cons, List.not_mem_nil, or_false] at hv
    rcases hv with rfl | rfl <;> omega
  | [a, b], hb => by
    have ha := hb a (by simp)
    have hbb := hb b (by simp)
    intro v hv
    simp only [b64Sextets, List.mem_cons, List.not_mem_nil, or_false] at hv
    rcases hv with rfl | rfl | rfl <;> omega
  | a :: b :: c :: rest, hb => by
    have ha := hb a (by simp)
    have hbb := hb b (by simp)
    have hc := hb c (by simp)
    have ih := b64Sextets_lt rest fun x hx => hb x (by simp [hx])
    intro v hv
    simp only [b64Sextets, List.mem_cons] at hv
    rcases hv with rfl | rfl | rfl | rfl | hv
    · omega
    · omega
    · omega
    · omega
    · exact ih v hv

/-- Sextets of a non-empty byte list are non-empty. -/
theorem b64Sextets_ne_nil : ∀ (bs : List Nat), bs ≠ [] → b64Sextets bs ≠ []
  | [], h => absurd rfl h
  | [_], _ => by simp [b64Sextets]
  | [_, _], _ => by simp [b64Sextets]
  | _ :: _ :: _ :: _, _ => by simp [b64Sextets]

/-- Decoding inverts the sextet expansion of in-range bytes. -/
theorem decodeVals_b64Sextets : ∀ (bs : List Nat), (∀ b ∈ bs, b < 256) →
    decodeVals (b64Sextets bs) = some bs
  | [], _ => rfl
  | [a], hb => by
    have ha := hb a (by simp)
    simp only [b64Sextets, decodeVals, Option.some.injEq, List.cons.injEq, and_true]
    omega
  | [a, b], hb => by
    have ha := hb a (by simp)
    have hbb := hb b (by simp)
    simp only [b64Sextets, decodeVals, Option.some.injEq, List.cons.injEq, and_true]
    constructor
    · omega
    · omega
  | a :: b :: c :: rest, hb => by
    have ha := hb a (by simp)
    have hbb := hb b (by simp)
    have hc := hb c (by simp)
    have ih := decodeVals_b64Sextets rest fun x hx => hb x (by simp [hx])
    cases rest with
    | nil =>
      show (decodeVals []).map _ = _
      simp only [decodeVals, Option.map_some', Option.some.injEq, List.cons.injEq,
        and_true]
      exact ⟨by omega, by omega, by omega⟩
    | cons d rest2 =>
      have hmatch : b64Sextets (a :: b :: c :: d :: rest2) =
          (a / 4) :: (a % 4 * 16 + b / 16) :: (b % 16 * 4 + c / 64) :: (c % 64) ::
            b64Sextets (d :: rest2) := rfl
      rw [hmatch]
      have hne : b64Sextets (d :: rest2) ≠ [] :=
        b64Sextets_ne_nil (d :: rest2) (by simp)
      cases hs : b64Sextets (d :: rest2) with
      | nil => exact absurd hs hne
      | cons s ss =>
        rw [hs] at ih
        simp only [decodeVals]
        rw [ih]
        simp only [Option.map_some', Option.some.injEq, List.cons.injEq, and_true]
        omega

/-- Character-level decoding inverts the alphabet mapping. -/
theorem charVals_map (vs : List Nat) (hv : ∀ v ∈ vs, v < 64) :
    charVals (vs.map b64CharOf) = some vs := by
  induction vs with
  | nil => rfl
  | cons v t ih =>
    have h1 := (b64CharOf_facts v (hv v (by simp))).1
    simp only [List.map_cons, charVals, h1, Option.some_bind]
    rw [ih fun x hx => hv x (by simp [hx])]
    rfl

/-- The sextet character count plus padding count is a multiple of four. -/
theorem b64Sextets_length : ∀ (bs : List Nat),
    ((b64Sextets bs).length + b64PadLen bs) % 4 = 0
  | [] => rfl
  | [_] => by simp [b64Sextets, b64PadLen]
  | [_, _] => by simp [b64Sextets, b64PadLen]
  | a :: b :: c :: rest => by
    have ih := b64Sextets_length rest
    have hp : b64PadLen (a :: b :: c :: rest) = b64PadLen rest := by
      simp only [b64PadLen, List.length_cons]
      omega
    simp only [b64Sextets, List.length_cons, hp]
    omega

/-- Stripping the padding of an encoded block recovers the sextet
characters. -/
theorem stripPad_encode (m : List Char) (k : Nat)
    (hlen : (m.length + k) % 4 = 0) (hk : k ≤ 2)
    (hm : ∀ x ∈ m, x ≠ '=') (hne : k = 1 → m ≠ []) :
    stripPad (m ++ List.replicate k '=') = m := by
  interval_cases k
  · rw [List.replicate, List.append_nil, stripPad, if_pos (by omega)]
    cases hrev : m.reverse with
    | nil =>
      have h0 : m = [] := by simpa using congrArg List.reverse hrev
      simp [h0, dropPadRev]
    | cons x t =>
      have hx : x ∈ m := by
        rw [← List.mem_reverse, hrev]
        simp
      have hxe : ¬ x = '=' := hm x hx
      have hd : dropPadRev (x :: t) = x :: t := by simp [dropPadRev, hxe]
      rw [hd, ← hrev, List.reverse_reverse]
  · have hm' : m ≠ [] := hne rfl
    rw [stripPad, if_pos (by simp [List.length_append]; omega), List.reverse_append]
    cases hrev : m.reverse with
    | nil => exact absurd (by simpa using congrArg List.reverse hrev) hm'
    | cons x t =>
      have hx : x ∈ m := by
        rw [← List.mem_reverse, hrev]
        simp
      have hxe : ¬ x = '=' := hm x hx
      have hd : dropPadRev ((List.replicate 1 '=').reverse ++ (x :: t)) = x :: t := by
        show dropPadRev ('=' :: x :: t) = x :: t
        simp [dropPadRev, hxe]
      rw [hd, ← hrev, List.reverse_reverse]
  · rw [stripPad, if_pos (by simp [List.length_append]; omega), List.reverse_append]
    have hd : dropPadRev ((List.replicate 2 '=').reverse ++ m.reverse) = m.reverse := by
      show dropPadRev ('=' :: '=' :: m.reverse) = m.reverse
      simp [dropPadRev]
    rw [hd, List.reverse_reverse]

/-- Every character of an encoded block is an alphabet character or `=`. -/
theorem base64Encode_mem (bs : List Nat) (hb : ∀ b ∈ bs, b < 256) :
    ∀ c ∈ base64Encode bs, (∃ v, v < 64 ∧ c = b64CharOf v) ∨ c = '=' := by
  intro c hc
  simp only [base64Encode, List.mem_append] at hc
  rcases hc with hc | hc
  · obtain ⟨v, hvmem, rfl⟩ := List.mem_map.mp hc
    exact Or.inl ⟨v, b64Sextets_lt bs hb v hvmem, rfl⟩
  · exact Or.inr (List.eq_of_mem_replicate hc)

/-- Whitespace stripping does not touch an encoded block. -/
theorem base64Encode_filter (bs : List Nat) (hb : ∀ b ∈ bs, b < 256) :
    (base64Encode bs).filter (fun c => !isB64Ws c) = base64Encode bs := by
  apply List.filter_eq_self.mpr
  intro c hc
  rcases base64Encode_mem bs hb c hc with ⟨v, hv, rfl⟩ | rfl
  · simp [(b64CharOf_facts v hv).2.1]
  · decide

/-- `atob` inverts standard base64 encoding of in-range bytes. -/
theorem atobL_base64Encode (bs : List Nat) (hb : ∀ b ∈ bs, b < 256) :
    atobL (base64Encode bs) = some bs := by
  have hsex := b64Sextets_lt bs hb
  have hfil := base64Encode_filter bs hb
  have hstrip : stripPad (base64Encode bs) = (b64Sextets bs).map b64CharOf := by
    have hlen : (((b64Sextets bs).map b64CharOf).length + b64PadLen bs) % 4 = 0 := by
      rw [List.length_map]
      exact b64Sextets_length bs
    refine stripPad_encode _ _ hlen (by simp only [b64PadLen]; omega) ?_ ?_
    · intro x hx
      obtain ⟨v, hvmem, rfl⟩ := List.mem_map.mp hx
      exact (b64CharOf_facts v (hsex v hvmem)).2.2.1
    · intro hk1
      have hbs : bs ≠ [] := by
        intro h0
        rw [h0] at hk1
        simp [b64PadLen] at hk1
      have hne := b64Sextets_ne_nil bs hbs
      simpa using hne
  show (if (stripPad ((base64Encode bs).filter fun c => !isB64Ws c)).length % 4 = 1
      then none
      else (charVals (stripPad ((base64Encode bs).filter fun c => !isB64Ws c))).bind
        decodeVals) = some bs
  rw [hfil, hstrip]
  have hlen4 := b64Sextets_length bs
  have hpad : b64PadLen bs ≤ 2 := by
    simp only [b64PadLen]
    omega
  rw [if_neg (by rw [List.length_map]; omega)]
  rw [charVals_map _ hsex, Option.some_bind, decodeVals_b64Sextets bs hb]

/-- The dash/underscore replace step maps the base64url encoding back to the
standard encoding. -/
theorem b64Replace_b64UrlEncode (bs : List Nat) (hb : ∀ b ∈ bs, b < 256) :
    b64Replace (b64UrlEncode bs) = base64Encode bs := by
  rw [b64Replace, b64UrlEncode, List.map_map]
  have h : ∀ c ∈ base64Encode bs, (stdOfUrlChar ∘ urlOfStdChar) c = c := by
    intro c hc
    rcases base64Encode_mem bs hb c hc with ⟨v, hv, rfl⟩ | rfl
    · exact (b64CharOf_facts v hv).2.2.2.1
    · decide
  rw [show (base64Encode bs).map (stdOfUrlChar ∘ urlOfStdChar) =
      (base64Encode bs).map id from List.map_congr_left fun a ha => h a ha,
    List.map_id]

/-- The base64url encoding contains no dot. -/
theorem b64UrlEncode_no_dot (bs : List Nat) (hb : ∀ b ∈ bs, b < 256) :
    '.' ∉ b64UrlEncode bs := by
  intro hmem
  rw [b64UrlEncode] at hmem
  obtain ⟨c, hc, hec⟩ := List.mem_map.mp hmem
  rcases base64Encode_mem bs hb c hc with ⟨v, hv, rfl⟩ | rfl
  · exact (b64CharOf_facts v hv).2.2.2.2 hec
  · exact absurd hec (by decide)

/-! ## Percent-escape and UTF-8 round-trip lemmas -/

/-- Percent-parsing inverts the byte-wise percent-escape encoding. -/
theorem percentParse_encode (bs : List Nat) (hb : ∀ b ∈ bs, b < 256) :
    percentParse (percentHexEncode bs) = some bs := by
  induction bs with
  | nil => rfl
  | cons b t ih =>
    have hb0 := hb b (by simp)
    have h1 : hexVal (hexDigitOf (b / 16 % 16)) = some (b / 16 % 16) :=
      hexVal_hexDigitOf _ (by omega)
    have h2 : hexVal (hexDigitOf (b % 16)) = some (b % 16) :=
      hexVal_hexDigitOf _ (by omega)
    show percentParse
        ('%' :: hexDigitOf (b / 16 % 16) :: hexDigitOf (b % 16) :: percentHexEncode t) =
      some (b :: t)
    simp only [percentParse, h1, h2, Option.some_bind]
    rw [ih fun x hx => hb x (by simp [hx])]
    simp only [Option.map_some', Option.some.injEq, List.cons.injEq, and_true]
    omega

/-- All bytes of the UTF-8 encoding of a scalar value are in range. -/
theorem utf8EncodeChar_lt (n : Nat) (h : n < 0x110000) :
    ∀ b ∈ utf8EncodeChar n, b < 256 := by
  intro b hb
  rw [utf8EncodeChar] at hb
  split_ifs at hb with h1 h2 h3
  · simp only [List.mem_singleton] at hb
    omega
  · rcases (by simpa using hb : b = 0xc0 + n / 64 ∨ b = 0x80 + n % 64) with rfl | rfl <;>
      omega
  · rcases (by simpa using hb :
        b = 0xe0 + n / 4096 ∨ b = 0x80 + n / 64 % 64 ∨ b = 0x80 + n % 64) with
      rfl | rfl | rfl <;> omega
  · rcases (by simpa using hb :
        b = 0xf0 + n / 262144 ∨ b = 0x80 + n / 4096 % 64 ∨ b = 0x80 + n / 64 % 64 ∨
          b = 0x80 + n % 64) with rfl | rfl | rfl | rfl <;> omega

/-- All bytes of the UTF-8 encoding of a string are in range. -/
theorem utf8EncodeL_lt (s : List Char) : ∀ b ∈ utf8EncodeL s, b < 256 := by
  intro b hb
  obtain ⟨c, _, hbc⟩ := List.mem_flatMap.mp hb
  exact utf8EncodeChar_lt c.toNat (char_toNat_lt c) b hbc

/-- The decoder consumes the encoding of one character and continues. -/
theorem utf8DecodeAux_encodeChar (f : Nat) (c : Char) (e : List Nat) :
    utf8DecodeAux (f + 1) (utf8EncodeChar c.toNat ++ e) =
      (utf8DecodeAux f e).map fun t => c :: t := by
  have hlt := char_toNat_lt c
  have hsur := char_toNat_not_surr c
  rw [utf8EncodeChar]
  by_cases h1 : c.toNat < 0x80
  · rw [if_pos h1]
    show utf8DecodeAux (f + 1) (c.toNat :: e) = _
    simp only [utf8DecodeAux]
    rw [if_pos h1, Char.ofNat_toNat]
  · rw [if_neg h1]
    by_cases h2 : c.toNat < 0x800
    · rw [if_pos h2]
      show utf8DecodeAux (f + 1)
          ((0xc0 + c.toNat / 64) :: (0x80 + c.toNat % 64) :: e) = _
      simp only [utf8DecodeAux]
      rw [if_neg (by omega), if_neg (by first | omega), if_pos (by omega),
        if_pos (by constructor <;> omega)]
      simp only [show (0xc0 + c.toNat / 64 - 0xc0) * 64 + (0x80 + c.toNat % 64 - 0x80) =
          c.toNat from by omega,
        Char.ofNat_toNat]
    · rw [if_neg h2]
      by_cases h3 : c.toNat < 0x10000
      · rw [if_pos h3]
        show utf8DecodeAux (f + 1)
            ((0xe0 + c.toNat / 4096) :: (0x80 + c.toNat / 64 % 64) ::
              (0x80 + c.toNat % 64) :: e) = _
        simp only [utf8DecodeAux]
        rw [if_neg (by omega), if_neg (by first | omega), if_neg (by omega),
          if_pos (by first | omega),
          if_pos (by refine ⟨⟨by omega, by omega⟩, by omega, by omega⟩)]
        rw [if_neg (by
          simp only [show (0xe0 + c.toNat / 4096 - 0xe0) * 4096 +
              (0x80 + c.toNat / 64 % 64 - 0x80) * 64 + (0x80 + c.toNat % 64 - 0x80) =
              c.toNat from by omega]
          omega)]
        simp only [show (0xe0 + c.toNat / 4096 - 0xe0) * 4096 +
            (0x80 + c.toNat / 64 % 64 - 0x80) * 64 + (0x80 + c.toNat % 64 - 0x80) =
            c.toNat from by omega,
          Char.ofNat_toNat]
      · rw [if_neg h3]
        show utf8DecodeAux (f + 1)
            ((0xf0 + c.toNat / 262144) :: (0x80 + c.toNat / 4096 % 64) ::
              (0x80 + c.toNat / 64 % 64) :: (0x80 + c.toNat % 64) :: e) = _
        simp only [utf8DecodeAux]
        rw [if_neg (by omega), if_neg (by first | omega), if_neg (by omega),
          if_neg (by first | omega), if_pos (by omega),
          if_pos (by refine ⟨⟨by omega, by omega⟩, ⟨by omega, by omega⟩, by omega,
            by omega⟩)]
        rw [if_neg (by
          simp only [show (0xf0 + c.toNat / 262144 - 0xf0) * 262144 +
              (0x80 + c.toNat / 4096 % 64 - 0x80) * 4096 +
              (0x80 + c.toNat / 64 % 64 - 0x80) * 64 + (0x80 + c.toNat % 64 - 0x80) =
              c.toNat from by omega]
          omega)]
        simp only [show (0xf0 + c.toNat / 262144 - 0xf0) * 262144 +
            (0x80 + c.toNat / 4096 % 64 - 0x80) * 4096 +
            (0x80 + c.toNat / 64 % 64 - 0x80) * 64 + (0x80 + c.toNat % 64 - 0x80) =
            c.toNat from by omega,
          Char.ofNat_toNat]

/-- Each character encodes to at least one byte. -/
theorem utf8EncodeL_length (s : List Char) : s.length ≤ (utf8EncodeL s).length := by
  induction s with
  | nil => simp [utf8EncodeL]
  | cons c t ih =>
    have h1 : 1 ≤ (utf8EncodeChar c.toNat).length := by
      rw [utf8EncodeChar]
      split_ifs <;> simp
    simp only [utf8EncodeL, List.flatMap_cons, List.length_append, List.length_cons]
    simp only [utf8EncodeL] at ih
    omega

/-- The fueled decoder inverts the encoder given enough fuel. -/
theorem utf8DecodeAux_encodeL : ∀ (s : List Char) (f : Nat), s.length ≤ f →
    utf8DecodeAux f (utf8EncodeL s) = some s
  | [], f, _ => by cases f <;> rfl
  | c :: t, f, hf => by
    cases f with
    | zero => simp at hf
    | succ f' =>
      show utf8DecodeAux (f' + 1) (utf8EncodeChar c.toNat ++ utf8EncodeL t) = _
      rw [utf8DecodeAux_encodeChar]
      rw [utf8DecodeAux_encodeL t f' (by simp at hf; omega)]
      rfl

/-- Strict UTF-8 decoding inverts encoding. -/
theorem utf8Decode_utf8EncodeL (s : List Char) : utf8Decode (utf8EncodeL s) = some s :=
  utf8DecodeAux_encodeL s _ (utf8EncodeL_length s)

/-- The percent-escape plus `decodeURIComponent` pipeline of `decodeToken`
recovers the string whose UTF-8 bytes were given. -/
theorem uriDecodeEscaped_encode (s : List Char) :
    uriDecodeEscaped (percentHexEncode (utf8EncodeL s)) = some s := by
  rw [uriDecodeEscaped, percentParse_encode _ (utf8EncodeL_lt s), Option.some_bind,
    utf8Decode_utf8EncodeL]

/-! ## JSON number lemmas -/

/-- Decimal rendering is non-empty. -/
theorem natChars_ne_nil (n : Nat) : natChars n ≠ [] := by
  rw [natChars]
  split
  · simp
  · simp

/-- Decimal rendering starts with a digit. -/
theorem natChars_head : ∀ (n : Nat), ∃ d t, natChars n = d :: t ∧ isDigitC d = true := by
  intro n
  induction n using Nat.strong_induction_on with
  | _ n ih =>
    rw [natChars]
    split
    · next h => exact ⟨digitOf n, [], rfl, isDigitC_digitOf n (by omega)⟩
    · next h =>
      obtain ⟨d, t, heq, hd⟩ := ih (n / 10) (Nat.div_lt_self (by omega) (by omega))
      exact ⟨d, t ++ [digitOf (n % 10)], by rw [heq]; rfl, hd⟩

/-- Digit parsing consumes a decimal rendering, shifting the accumulator. -/
theorem parseDigitsAcc_natChars : ∀ (m acc : Nat) (r : List Char),
    parseDigitsAcc acc (natChars m ++ r) =
      parseDigitsAcc (acc * 10 ^ (natChars m).length + m) r := by
  intro m
  induction m using Nat.strong_induction_on with
  | _ m ih =>
    intro acc r
    by_cases h : m < 10
    · rw [natChars, dif_pos h]
      simp only [List.cons_append, List.nil_append, parseDigitsAcc,
        isDigitC_digitOf m h, if_true, digitOf_toNat m h, List.length_cons,
        List.length_nil]
      norm_num
    · rw [natChars, dif_neg h]
      rw [List.append_assoc, List.singleton_append,
        ih (m / 10) (Nat.div_lt_self (by omega) (by omega))]
      have hd : isDigitC (digitOf (m % 10)) = true := isDigitC_digitOf _ (by omega)
      simp only [parseDigitsAcc, hd, if_true, digitOf_toNat (m % 10) (by omega)]
      simp only [List.length_append, List.length_cons, List.length_nil, Nat.zero_add,
        pow_succ, ← mul_assoc]
      have harith : (acc * 10 ^ (natChars (m / 10)).length + m / 10) * 10 +
          (48 + m % 10 - 48) = acc * 10 ^ (natChars (m / 10)).length * 10 + m := by
        have hdm := Nat.div_add_mod m 10
        generalize acc * 10 ^ (natChars (m / 10)).length = Q at *
        omega
      rw [harith]

/-- Digit parsing stops at a non-digit. -/
theorem parseDigitsAcc_stop (acc : Nat) (r : List Char)
    (h : ∀ c ∈ r.head?, isDigitC c = false) : parseDigitsAcc acc r = (acc, r) := by
  cases r with
  | nil => rfl
  | cons c t =>
    have hc : isDigitC c = false := h c (by simp)
    simp [parseDigitsAcc, hc]

/-- Facts about a digit character used for match fall-through. -/
theorem digit_char_facts (c : Char) (h : isDigitC c = true) :
    isJsonWs c = false ∧ ¬c = 'n' ∧ ¬c = 't' ∧ ¬c = 'f' ∧ ¬c = '"' ∧ ¬c = '[' ∧
      ¬c = '\x7b' ∧ ¬c = ']' ∧ ¬c = '\x7d' ∧ ¬c = '-' := by
  simp only [isDigitC, decide_eq_true_eq] at h
  repeat' apply And.intro
  · simp only [isJsonWs]
    simp only [Bool.or_eq_false_iff, decide_eq_false_iff_not]
    omega
  · intro hc; rw [char_eq_iff_toNat] at hc
    have hv : ('n').toNat = 110 := rfl
    omega
  · intro hc; rw [char_eq_iff_toNat] at hc
    have hv : ('t').toNat = 116 := rfl
    omega
  · intro hc; rw [char_eq_iff_toNat] at hc
    have hv : ('f').toNat = 102 := rfl
    omega
  · intro hc; rw [char_eq_iff_toNat] at hc
    have hv : ('"').toNat = 34 := rfl
    omega
  · intro hc; rw [char_eq_iff_toNat] at hc
    have hv : ('[').toNat = 91 := rfl
    omega
  · intro hc; rw [char_eq_iff_toNat] at hc
    have hv : ('\x7b').toNat = 123 := rfl
    omega
  · intro hc; rw [char_eq_iff_toNat] at hc
    have hv : (']').toNat = 93 := rfl
    omega
  · intro hc; rw [char_eq_iff_toNat] at hc
    have hv : ('\x7d').toNat = 125 := rfl
    omega
  · intro hc; rw [char_eq_iff_toNat] at hc
    have hv : ('-').toNat = 45 := rfl
    omega

/-- Number parsing inverts the canonical integer rendering, stopping at a
non-digit. -/
theorem parseNumber_intChars (n : Int) (r : List Char)
    (hr : ∀ c ∈ r.head?, isDigitC c = false) :
    parseNumber (intChars n ++ r) = some (.num n, r) := by
  have hparse : parseDigitsAcc 0 (natChars n.natAbs ++ r) = (n.natAbs, r) := by
    rw [parseDigitsAcc_natChars, parseDigitsAcc_stop _ _ hr]
    simp
  by_cases hn : n < 0
  · rw [intChars, if_pos hn, List.cons_append]
    obtain ⟨d, t, heq, hd⟩ := natChars_head n.natAbs
    rw [heq, List.cons_append]
    simp only [parseNumber, reduceIte, hd, if_true]
    rw [show d :: (t ++ r) = natChars n.natAbs ++ r from by rw [heq]; rfl, hparse]
    have hint : -(Int.ofNat n.natAbs) = n := by
      simp only [Int.ofNat_eq_natCast]
      omega
    dsimp only
    rw [hint]
  · rw [intChars, if_neg hn]
    obtain ⟨d, t, heq, hd⟩ := natChars_head n.natAbs
    have hfacts := digit_char_facts d hd
    rw [heq, List.cons_append]
    simp only [parseNumber, hfacts.2.2.2.2.2.2.2.2.2, if_false, hd, if_true]
    rw [show d :: (t ++ r) = natChars n.natAbs ++ r from by rw [heq]; rfl, hparse]
    have hint : Int.ofNat n.natAbs = n := by
      simp only [Int.ofNat_eq_natCast]
      omega
    dsimp only
    rw [hint]

/-! ## JSON string literal lemmas -/

/-- String-body parsing inverts the character escape, given fuel for each
produced character. -/
theorem parseStrBody_escape : ∀ (s : List Char) (f : Nat) (r : List Char), s.length ≤ f →
    parseStrBody f (strBodyChars s ++ '"' :: r) = some (s, r)
  | [], f, r, _ => by
    show parseStrBody f ('"' :: r) = some ([], r)
    cases f <;> simp [parseStrBody]
  | c :: t, f, r, hf => by
    cases f with
    | zero => simp at hf
    | succ f' =>
      have hle : t.length ≤ f' := by
        simp only [List.length_cons] at hf
        omega
      have ih := parseStrBody_escape t f' r hle
      show parseStrBody (f' + 1) ((escChar c ++ strBodyChars t) ++ '"' :: r) =
        some (c :: t, r)
      rw [List.append_assoc]
      by_cases hq : c = '"'
      · subst hq
        rw [show escChar '"' = ['\\', '"'] from rfl]
        simp [parseStrBody, escUnmap, ih]
      · by_cases hb : c = '\\'
        · subst hb
          rw [show escChar '\\' = ['\\', '\\'] from rfl]
          simp [parseStrBody, escUnmap, ih]
        · by_cases hctl : c.toNat < 32
          · have hesc : escChar c =
                if c.toNat = 8 then ['\\', 'b']
                else if c.toNat = 9 then ['\\', 't']
                else if c.toNat = 10 then ['\\', 'n']
                else if c.toNat = 12 then ['\\', 'f']
                else if c.toNat = 13 then ['\\', 'r']
                else ['\\', 'u', '0', '0', hexDigitOf (c.toNat / 16),
                  hexDigitOf (c.toNat % 16)] := by
              rw [escChar, if_neg hq, if_neg hb, if_pos hctl]
            have hofNat : ∀ m : Nat, c.toNat = m → Char.ofNat m = c := by
              intro m hm
              rw [← hm, Char.ofNat_toNat]
            by_cases h8 : c.toNat = 8
            · rw [hesc, if_pos h8]
              simp [parseStrBody, escUnmap, ih]
              exact hofNat 8 h8
            · by_cases h9 : c.toNat = 9
              · rw [hesc, if_neg h8, if_pos h9]
                simp [parseStrBody, escUnmap, ih]
                exact hofNat 9 h9
              · by_cases h10 : c.toNat = 10
                · rw [hesc, if_neg h8, if_neg h9, if_pos h10]
                  simp [parseStrBody, escUnmap, ih]
                  exact hofNat 10 h10
                · by_cases h12 : c.toNat = 12
                  · rw [hesc, if_neg h8, if_neg h9, if_neg h10, if_pos h12]
                    simp [parseStrBody, escUnmap, ih]
                    exact hofNat 12 h12
                  · by_cases h13 : c.toNat = 13
                    · rw [hesc, if_neg h8, if_neg h9, if_neg h10, if_neg h12,
                        if_pos h13]
                      simp [parseStrBody, escUnmap, ih]
                      exact hofNat 13 h13
                    · rw [hesc, if_neg h8, if_neg h9, if_neg h10, if_neg h12,
                        if_neg h13]
                      have hx1 : hexVal (hexDigitOf (c.toNat / 16)) =
                          some (c.toNat / 16) := hexVal_hexDigitOf _ (by omega)
                      have hx2 : hexVal (hexDigitOf (c.toNat % 16)) =
                          some (c.toNat % 16) := hexVal_hexDigitOf _ (by omega)
                      have hval : ((0 * 16 + 0) * 16 + c.toNat / 16) * 16 +
                          c.toNat % 16 = c.toNat := by omega
                      have hs1 : ¬(0xd800 ≤ c.toNat ∧ c.toNat ≤ 0xdbff) := by omega
                      have hs2 : ¬(0xdc00 ≤ c.toNat ∧ c.toNat ≤ 0xdfff) := by omega
                      simp [parseStrBody, hex4, hx1, hx2,
                        show hexVal '0' = some 0 from by decide, hval, hs1, hs2, ih]
                      rw [show c.toNat / 16 * 16 + c.toNat % 16 = c.toNat from by omega]
                      rw [if_neg (by omega), if_neg (by first | omega), Char.ofNat_toNat]
          · rw [show escChar c = [c] from by
              rw [escChar, if_neg hq, if_neg hb, if_neg hctl]]
            simp [parseStrBody, hq, hb, hctl, ih]

/-- Every serialized JSON value starts with a non-whitespace character that
is neither a closing bracket nor a closing brace. -/
theorem jsonChars_head_facts (v : Json) :
    ∃ c t, jsonChars v = c :: t ∧ isJsonWs c = false ∧ ¬c = ']' ∧ ¬c = '\x7d' := by
  cases v with
  | null => refine ⟨'n', ['u', 'l', 'l'], rfl, ?_, ?_, ?_⟩ <;> decide
  | bool b =>
    cases b with
    | true => refine ⟨'t', ['r', 'u', 'e'], rfl, ?_, ?_, ?_⟩ <;> decide
    | false => refine ⟨'f', ['a', 'l', 's', 'e'], rfl, ?_, ?_, ?_⟩ <;> decide
  | num n =>
    by_cases hn : n < 0
    · exact ⟨'-', natChars n.natAbs, by simp [jsonChars, intChars, hn], by decide,
        by decide, by decide⟩
    · obtain ⟨d, t, heq, hd⟩ := natChars_head n.natAbs
      have hf := digit_char_facts d hd
      exact ⟨d, t, by simp [jsonChars, intChars, hn, heq], hf.1,
        hf.2.2.2.2.2.2.2.1, hf.2.2.2.2.2.2.2.2.1⟩
  | str s =>
    refine ⟨'"', strBodyChars s ++ ['"'], rfl, ?_, ?_, ?_⟩ <;> decide
  | arr es =>
    refine ⟨'[', jsonCharsList es ++ [']'], rfl, ?_, ?_, ?_⟩ <;> decide
  | obj ms =>
    refine ⟨'\x7b', jsonCharsMems ms ++ ['\x7d'], rfl, ?_, ?_, ?_⟩ <;> decide

mutual

/-- The JSON value parser inverts serialization, for any continuation that
starts with a delimiter (or is empty). -/
theorem parseVal_jsonChars : ∀ (v : Json) (f : Nat) (r : List Char), jsize v ≤ f →
    (∀ c ∈ r.head?, c = ',' ∨ c = ']' ∨ c = '\x7d') →
    parseVal f (jsonChars v ++ r) = some (v, r)
  | .null, f, r, hf, _ => by
    cases f with
    | zero => simp [jsize] at hf
    | succ f' =>
      show parseVal (f' + 1) ('n' :: 'u' :: 'l' :: 'l' :: r) = some (.null, r)
      have he : expectL ['u', 'l', 'l'] ('u' :: 'l' :: 'l' :: r) = some r :=
        expectL_append ['u', 'l', 'l'] r
      simp [parseVal, skipWs_cons 'n' _ (by decide), he]
  | .bool true, f, r, hf, _ => by
    cases f with
    | zero => simp [jsize] at hf
    | succ f' =>
      show parseVal (f' + 1) ('t' :: 'r' :: 'u' :: 'e' :: r) = some (.bool true, r)
      have he : expectL ['r', 'u', 'e'] ('r' :: 'u' :: 'e' :: r) = some r :=
        expectL_append ['r', 'u', 'e'] r
      simp [parseVal, skipWs_cons 't' _ (by decide), he]
  | .bool false, f, r, hf, _ => by
    cases f with
    | zero => simp [jsize] at hf
    | succ f' =>
      show parseVal (f' + 1) ('f' :: 'a' :: 'l' :: 's' :: 'e' :: r) =
        some (.bool false, r)
      have he : expectL ['a', 'l', 's', 'e'] ('a' :: 'l' :: 's' :: 'e' :: r) = some r :=
        expectL_append ['a', 'l', 's', 'e'] r
      simp [parseVal, skipWs_cons 'f' _ (by decide), he]
  | .num n, f, r, hf, hdelim => by
    cases f with
    | zero => simp [jsize] at hf
    | succ f' =>
      have hdig : ∀ c ∈ r.head?, isDigitC c = false := by
        intro c hc
        rcases hdelim c hc with rfl | rfl | rfl <;> decide
      show parseVal (f' + 1) (intChars n ++ r) = some (.num n, r)
      obtain ⟨c0, t0, heq, hws, hn1, hn2, hn3, hn4, hn5, hn6⟩ :
          ∃ c0 t0, intChars n ++ r = c0 :: t0 ∧ isJsonWs c0 = false ∧ ¬c0 = 'n' ∧
            ¬c0 = 't' ∧ ¬c0 = 'f' ∧ ¬c0 = '"' ∧ ¬c0 = '[' ∧ ¬c0 = '\x7b' := by
        by_cases hn : n < 0
        · refine ⟨'-', natChars n.natAbs ++ r, ?_, by decide, by decide, by decide,
            by decide, by decide, by decide, by decide⟩
          rw [intChars, if_pos hn]
          rfl
        · obtain ⟨d, t, hq, hd⟩ := natChars_head n.natAbs
          have hfd := digit_char_facts d hd
          refine ⟨d, t ++ r, ?_, hfd.1, hfd.2.1, hfd.2.2.1, hfd.2.2.2.1,
            hfd.2.2.2.2.1, hfd.2.2.2.2.2.1, hfd.2.2.2.2.2.2.1⟩
          rw [intChars, if_neg hn, hq]
          rfl
      rw [heq]
      simp only [parseVal]
      rw [skipWs_cons _ _ hws]
      dsimp only
      rw [if_neg hn1, if_neg hn2, if_neg hn3, if_neg hn4, if_neg hn5, if_neg hn6,
        ← heq]
      exact parseNumber_intChars n r hdig
  | .str s, f, r, hf, _ => by
    cases f with
    | zero => simp [jsize] at hf
    | succ f' =>
      show parseVal (f' + 1) ('"' :: ((strBodyChars s ++ ['"']) ++ r)) =
        some (.str s, r)
      simp [parseVal, skipWs_cons '"' _ (by decide)]
      exact parseStrBody_escape s f' r (by simp [jsize] at hf; omega)
  | .arr .nil, f, r, hf, _ => by
    cases f with
    | zero => simp [jsize] at hf
    | succ f' =>
      show parseVal (f' + 1) ('[' :: ']' :: r) = some (.arr .nil, r)
      simp [parseVal, skipWs_cons '[' _ (by decide),
        skipWs_cons ']' r (by decide)]
  | .arr (.cons h t), f, r, hf, _ => by
    cases f with
    | zero => simp [jsize] at hf
    | succ f' =>
      obtain ⟨c0, t0, hhd, hws, hne1, _⟩ := jsonChars_head_facts h
      obtain ⟨X, hX⟩ : ∃ X, jsonCharsList (.cons h t) = jsonChars h ++ X := by
        cases t with
        | nil => exact ⟨[], by simp [jsonCharsList]⟩
        | cons h2 t2 => exact ⟨',' :: jsonCharsList (.cons h2 t2), rfl⟩
      have hcons : jsonCharsList (.cons h t) ++ ']' :: r =
          c0 :: (t0 ++ (X ++ ']' :: r)) := by
        rw [hX, hhd]
        simp [List.append_assoc]
      rw [show jsonChars (.arr (.cons h t)) ++ r =
          '[' :: (jsonCharsList (.cons h t) ++ ']' :: r) from by
        simp [jsonChars, List.append_assoc]]
      simp only [parseVal]
      rw [skipWs_cons '[' _ (by decide)]
      dsimp only
      rw [if_neg (by decide), if_neg (by decide), if_neg (by decide),
        if_neg (by decide), if_pos rfl, hcons, skipWs_cons _ _ hws]
      dsimp only
      rw [if_neg hne1, ← hcons,
        parseElems_jsonCharsList h t f' r (by simp [jsize] at hf; omega)]
      rfl
  | .obj .nil, f, r, hf, _ => by
    cases f with
    | zero => simp [jsize] at hf
    | succ f' =>
      show parseVal (f' + 1) ('\x7b' :: '\x7d' :: r) = some (.obj .nil, r)
      simp [parseVal, skipWs_cons '\x7b' _ (by decide),
        skipWs_cons '\x7d' r (by decide)]
  | .obj (.cons k v t), f, r, hf, _ => by
    cases f with
    | zero => simp [jsize] at hf
    | succ f' =>
      obtain ⟨X, hX⟩ : ∃ X, jsonCharsMems (.cons k v t) =
          '"' :: (strBodyChars k ++ '"' :: ':' :: (jsonChars v ++ X)) := by
        cases t with
        | nil =>
          refine ⟨[], ?_⟩
          simp [jsonCharsMems, quoteChars, List.append_assoc]
        | cons k2 v2 t2 =>
          refine ⟨',' :: jsonCharsMems (.cons k2 v2 t2), ?_⟩
          simp [jsonCharsMems, quoteChars, List.append_assoc]
      rw [show jsonChars (.obj (.cons k v t)) ++ r =
          '\x7b' :: (jsonCharsMems (.cons k v t) ++ '\x7d' :: r) from by
        simp [jsonChars, List.append_assoc]]
      simp only [parseVal]
      rw [skipWs_cons '\x7b' _ (by decide)]
      dsimp only
      rw [if_neg (by decide), if_neg (by decide), if_neg (by decide),
        if_neg (by decide), if_neg (by decide), if_pos rfl]
      have hcons : jsonCharsMems (.cons k v t) ++ '\x7d' :: r =
          '"' :: (strBodyChars k ++ '"' :: ':' :: (jsonChars v ++ X) ++ '\x7d' :: r) := by
        rw [hX]
        simp [List.append_assoc]
      rw [hcons, skipWs_cons '\"' _ (by decide)]
      dsimp only
      rw [if_neg (by decide), ← hcons,
        parseMems_jsonCharsMems k v t f' r (by simp [jsize] at hf; omega)]
      rfl
termination_by v f r hf hdelim => f

/-- The element-list parser inverts serialization of a non-empty element
list followed by the closing bracket. -/
theorem parseElems_jsonCharsList : ∀ (h : Json) (t : JsonList) (f : Nat) (r : List Char),
    jsizeList (.cons h t) ≤ f →
    parseElems f (jsonCharsList (.cons h t) ++ ']' :: r) = some (.cons h t, r)
  | h, t, f, r, hf => by
    cases f with
    | zero => simp [jsizeList] at hf
    | succ f' =>
      simp only [parseElems]
      cases t with
      | nil =>
        rw [show jsonCharsList (.cons h .nil) = jsonChars h from rfl]
        rw [parseVal_jsonChars h f' (']' :: r)
          (by simp only [jsizeList] at hf; omega)
          (by intro c hc; simp at hc; subst hc; decide)]
        rw [Option.some_bind, skipWs_cons ']' _ (by decide)]
        rfl
      | cons h2 t2 =>
        rw [show jsonCharsList (.cons h (.cons h2 t2)) =
          jsonChars h ++ ',' :: jsonCharsList (.cons h2 t2) from rfl]
        rw [List.append_assoc, List.cons_append]
        rw [parseVal_jsonChars h f' (',' :: (jsonCharsList (.cons h2 t2) ++ ']' :: r))
          (by simp only [jsizeList] at hf; omega)
          (by intro c hc; simp at hc; subst hc; decide)]
        rw [Option.some_bind, skipWs_cons ',' _ (by decide)]
        dsimp only
        rw [if_pos rfl, parseElems_jsonCharsList h2 t2 f' r
          (by simp only [jsizeList] at hf ⊢; omega)]
        rfl
termination_by h t f r hf => f

/-- The member-list parser inverts serialization of a non-empty member list
followed by the closing brace. -/
theorem parseMems_jsonCharsMems : ∀ (k : List Char) (v : Json) (t : JsonMems) (f : Nat)
    (r : List Char), jsizeMems (.cons k v t) ≤ f →
    parseMems f (jsonCharsMems (.cons k v t) ++ '\x7d' :: r) = some (.cons k v t, r)
  | k, v, t, f, r, hf => by
    cases f with
    | zero => simp [jsizeMems] at hf
    | succ f' =>
      obtain ⟨X, hX, hXtail⟩ : ∃ X, jsonCharsMems (.cons k v t) =
          '"' :: (strBodyChars k ++ '"' :: ':' :: (jsonChars v ++ X)) ∧
          ((X = [] ∧ t = .nil) ∨ ∃ k2 v2 t2, t = .cons k2 v2 t2 ∧
            X = ',' :: jsonCharsMems (.cons k2 v2 t2)) := by
        cases t with
        | nil =>
          refine ⟨[], ?_, Or.inl ⟨rfl, rfl⟩⟩
          simp [jsonCharsMems, quoteChars, List.append_assoc]
        | cons k2 v2 t2 =>
          refine ⟨',' :: jsonCharsMems (.cons k2 v2 t2), ?_,
            Or.inr ⟨k2, v2, t2, rfl, rfl⟩⟩
          simp [jsonCharsMems, quoteChars, List.append_assoc]
      simp only [parseMems]
      have hin : jsonCharsMems (.cons k v t) ++ '\x7d' :: r =
          '"' :: (strBodyChars k ++ '"' ::
            (':' :: (jsonChars v ++ (X ++ '\x7d' :: r)))) := by
        rw [hX]
        simp [List.append_assoc]
      rw [hin, skipWs_cons '\"' _ (by decide)]
      dsimp only
      rw [if_pos rfl,
        parseStrBody_escape k f' (':' :: (jsonChars v ++ (X ++ '\x7d' :: r)))
        (by simp only [jsizeMems] at hf; omega)]
      rw [Option.some_bind, skipWs_cons ':' _ (by decide)]
      dsimp only
      rw [if_pos rfl]
      rcases hXtail with ⟨rfl, rfl⟩ | ⟨k2, v2, t2, rfl, rfl⟩
      · rw [List.nil_append,
          parseVal_jsonChars v f' ('\x7d' :: r)
            (by simp only [jsizeMems] at hf; omega)
            (by intro c hc; simp at hc; subst hc; decide)]
        rw [Option.some_bind, skipWs_cons '\x7d' _ (by decide)]
        dsimp only
        rw [if_neg (by decide), if_pos rfl]
      · rw [List.cons_append,
          parseVal_jsonChars v f'
            (',' :: (jsonCharsMems (.cons k2 v2 t2) ++ '\x7d' :: r))
            (by simp only [jsizeMems] at hf; omega)
            (by intro c hc; simp at hc; subst hc; decide)]
        rw [Option.some_bind, skipWs_cons ',' _ (by decide)]
        dsimp only
        rw [if_pos rfl, parseMems_jsonCharsMems k2 v2 t2 f' r
          (by simp only [jsizeMems] at hf ⊢; omega)]
        rfl
termination_by k v t f r hf => f

end

/-! ## The full `JSON.parse` round-trip and the `decodeToken` claims -/

/-- Every escape sequence is at least one character long. -/
theorem escChar_length (c : Char) : 1 ≤ (escChar c).length := by
  unfold escChar
  repeat' split
  all_goals simp

/-- Escaping a string body never shortens it. -/
theorem strBodyChars_length (s : List Char) : s.length ≤ (strBodyChars s).length := by
  induction s with
  | nil => simp [strBodyChars]
  | cons c t ih =>
    have h1 := escChar_length c
    simp only [strBodyChars, List.flatMap_cons, List.length_append,
      List.length_cons] at ih ⊢
    omega

/-- The decimal rendering of an integer is nonempty. -/
theorem intChars_length (n : Int) : 1 ≤ (intChars n).length := by
  rw [intChars]
  split
  · simp
  · have h := natChars_ne_nil n.natAbs
    have := List.length_pos_iff_ne_nil.mpr h
    omega

mutual

/-- The parser fuel measure of a value is bounded by the length of its
serialization. -/
theorem jsize_le : ∀ v : Json, jsize v ≤ (jsonChars v).length
  | .null => by simp [jsize, jsonChars]
  | .bool true => by simp [jsize, jsonChars]
  | .bool false => by simp [jsize, jsonChars]
  | .num n => by simpa [jsize, jsonChars] using intChars_length n
  | .str s => by
    have h := strBodyChars_length s
    simp only [jsize, jsonChars, quoteChars, List.length_cons, List.length_append,
      List.length_singleton]
    omega
  | .arr es => by
    have h := jsizeList_le es
    simp only [jsize, jsonChars, List.length_cons, List.length_append,
      List.length_singleton]
    omega
  | .obj ms => by
    have h := jsizeMems_le ms
    simp only [jsize, jsonChars, List.length_cons, List.length_append,
      List.length_singleton]
    omega

/-- Element-list fuel bound against the serialized element list. -/
theorem jsizeList_le : ∀ es : JsonList, jsizeList es ≤ (jsonCharsList es).length + 1
  | .nil => by simp [jsizeList, jsonCharsList]
  | .cons h .nil => by
    have ha := jsize_le h
    simp only [jsizeList, jsonCharsList]
    omega
  | .cons h (.cons h2 t) => by
    have ha := jsize_le h
    have hb := jsizeList_le (.cons h2 t)
    simp only [jsizeList, jsonCharsList, List.length_append, List.length_cons] at hb ⊢
    omega

/-- Member-list fuel bound against the serialized member list. -/
theorem jsizeMems_le : ∀ ms : JsonMems, jsizeMems ms ≤ (jsonCharsMems ms).length + 1
  | .nil => by simp [jsizeMems, jsonCharsMems]
  | .cons k v .nil => by
    have ha := jsize_le v
    have hs := strBodyChars_length k
    simp only [jsizeMems, jsonCharsMems, quoteChars, List.length_append,
      List.length_cons, List.length_singleton]
    omega
  | .cons k v (.cons k2 v2 t) => by
    have ha := jsize_le v
    have hs := strBodyChars_length k
    have hb := jsizeMems_le (.cons k2 v2 t)
    simp only [jsizeMems, jsonCharsMems, quoteChars, List.length_append,
      List.length_cons, List.length_singleton] at hb ⊢
    omega

end

/-- `JSON.parse` inverts `JSON.stringify` on the embedded JSON model. -/
theorem jsonParse_jsonChars (v : Json) : jsonParse (jsonChars v) = some v := by
  have h := parseVal_jsonChars v ((jsonChars v).length + 1) []
    (by have := jsize_le v; omega)
    (by intro c hc; simp at hc)
  rw [List.append_nil] at h
  rw [jsonParse, h, Option.some_bind]
  rfl

/-- C4: claims extraction (`decodeToken`) is total — it is a plain function
into `Option Json`, modelling the surrounding try/catch that converts every
thrown decoding error into null — and each failure mode yields `none`: a
token that does not split into exactly three dot-delimited segments, a
middle segment whose base64url decoding (`atob` after the character
replacement) fails, a byte sequence whose percent-escape/`decodeURIComponent`
UTF-8 interpretation fails, or a decoded text that fails JSON parsing. -/
theorem c4_theorem (token : String) :
    ((splitOnDot token.toList).length ≠ 3 → decodeToken token = none) ∧
    (atobL (b64Replace ((splitOnDot token.toList).getD 1 [])) = none →
      decodeToken token = none) ∧
    (∀ bs, atobL (b64Replace ((splitOnDot token.toList).getD 1 [])) = some bs →
      uriDecodeEscaped (percentHexEncode bs) = none → decodeToken token = none) ∧
    (∀ bs txt, atobL (b64Replace ((splitOnDot token.toList).getD 1 [])) = some bs →
      uriDecodeEscaped (percentHexEncode bs) = some txt →
      jsonParse txt = none → decodeToken token = none) := by
  refine ⟨?_, ?_, ?_, ?_⟩
  · intro h
    simp only [decodeToken, decodeTokenL]
    rw [if_pos h]
  · intro h
    simp only [decodeToken, decodeTokenL]
    by_cases hl : (splitOnDot token.toList).length ≠ 3
    · rw [if_pos hl]
    · rw [if_neg hl, h, Option.none_bind]
  · intro bs hbs hu
    simp only [decodeToken, decodeTokenL]
    by_cases hl : (splitOnDot token.toList).length ≠ 3
    · rw [if_pos hl]
    · rw [if_neg hl, hbs, Option.some_bind, hu, Option.none_bind]
  · intro bs txt hbs hu hj
    simp only [decodeToken, decodeTokenL]
    by_cases hl : (splitOnDot token.toList).length ≠ 3
    · rw [if_pos hl]
    · rw [if_neg hl, hbs, Option.some_bind, hu, Option.some_bind, hj]

/-- Witness for C4: the two-character token "ab" has one segment, not
three, and extraction returns `none`. -/
theorem c4_witness :
    (splitOnDot ("ab").toList).length ≠ 3 ∧ decodeToken "ab" = none :=
  ⟨by decide, (c4_theorem (String.mk ['a', 'b'])).1 (by decide)⟩

/-- C5: round-trip — serializing a claims object to JSON, base64url-encoding
the UTF-8 bytes of that JSON, and placing the result as the middle segment
of a three-segment dot-delimited token (header and signature free of dots)
makes claims extraction return exactly the original claims object. -/
theorem c5_theorem (hd sg : List Char) (c : Json)
    (h1 : '.' ∉ hd) (h2 : '.' ∉ sg) :
    decodeTokenL
      (hd ++ '.' :: (b64UrlEncode (utf8EncodeL (jsonChars c)) ++ '.' :: sg)) =
      some c := by
  have hby := utf8EncodeL_lt (jsonChars c)
  have hsp : splitOnDot
      (hd ++ '.' :: (b64UrlEncode (utf8EncodeL (jsonChars c)) ++ '.' :: sg)) =
      [hd, b64UrlEncode (utf8EncodeL (jsonChars c)), sg] := by
    rw [splitOnDot_append hd _ h1,
      splitOnDot_append _ sg (b64UrlEncode_no_dot _ hby),
      splitOnDot_no_dot sg h2]
  simp only [decodeTokenL, hsp, List.length_cons, List.length_nil,
    List.getD_cons_succ, List.getD_cons_zero]
  rw [if_neg (by omega)]
  rw [b64Replace_b64UrlEncode _ hby, atobL_base64Encode _ hby, Option.some_bind,
    uriDecodeEscaped_encode, Option.some_bind, jsonParse_jsonChars]

/-- Witness for C5: the claims object 5 wrapped between header "h" and
signature "s" round-trips through extraction. -/
theorem c5_witness : '.' ∉ ['h'] ∧ '.' ∉ ['s'] ∧
    decodeTokenL
      (['h'] ++ '.' :: (b64UrlEncode (utf8EncodeL (jsonChars (Json.num 5))) ++
        '.' :: ['s'])) = some (Json.num 5) :=
  ⟨by decide, by decide, c5_theorem ['h'] ['s'] (Json.num 5) (by decide) (by decide)⟩
